import Mathlib

/-!
Shallow embedding of `calender.py` (student_calendar v6.4), the event-extraction
engine of the student_calender repository, together with proofs settling the
frozen claims about its specification.

Conventions of the embedding:
* Python strings are Lean `String`s; most scanning work happens on `List Char`.
* Python regular-expression character classes `\s`, `\d`, `\w` and `[a-z]`
  (all patterns are compiled with `re.I`) are modelled at their ASCII scope
  plus the common Unicode whitespace characters; the repository's inputs and
  every concrete input used in the proofs are ASCII.
* `datetime.date` is modelled by `Date` (year/month/day as `Nat`) with the
  Gregorian validity check of `datetime` (years 1..9999) in `mkDate`.
* Fallible parsing (`try`/`except` around `strptime` etc.) is modelled with
  `Option`.
* The network call `fetch_uoft_calendar` is modelled as an explicit oracle
  parameter `uoft : List (Date × String)`: the list of (date, description)
  rows the fetch would return.
* Scanning loops over a string are written structurally recursive on a fuel
  argument initialised to the length of the scanned list; every step of the
  Python loop advances at least one character, so this fuel is never
  exhausted before the input is.
-/

namespace StudentCalendar

/-! ### Character classes (Python `re` semantics, ASCII scope) -/

/-- Python regex `\s` and `str.strip` whitespace (ASCII plus the common
Unicode whitespace characters). -/
def pySpace (c : Char) : Bool :=
  c = ' ' ∨ c = '\t' ∨ c = '\n' ∨ c = '\r' ∨ c = '\x0b' ∨ c = '\x0c' ∨
  c = '\x1c' ∨ c = '\x1d' ∨ c = '\x1e' ∨ c = '\x85' ∨ c = '\xa0' ∨
  (0x2000 ≤ c.toNat ∧ c.toNat ≤ 0x200a) ∨ c = ' ' ∨ c = ' ' ∨ c = ' ' ∨ c = ' ' ∨
  c = ' ' ∨ c = '　'

/-- Python regex `\d` (ASCII scope): a decimal digit (codes 48-57, which
is exactly `Char.isDigit`). -/
def pyDigit (c : Char) : Bool := 48 ≤ c.toNat ∧ c.toNat ≤ 57

/-- ASCII letter, i.e. what `[a-z]` matches under `re.I` (codes 65-90 and
97-122, which is exactly `Char.isAlpha`). -/
def asciiLetter (c : Char) : Bool :=
  (65 ≤ c.toNat ∧ c.toNat ≤ 90) ∨ (97 ≤ c.toNat ∧ c.toNat ≤ 122)

/-- Python regex `\w` (ASCII scope), used for `\b` word boundaries. -/
def wordChar (c : Char) : Bool := asciiLetter c ∨ pyDigit c ∨ c = '_'

/-- Value of a decimal digit character. -/
def digitVal (c : Char) : Nat := c.toNat - '0'.toNat

/-- Numeric value of a list of decimal digit characters (`int(...)`). -/
def digitsVal (ds : List Char) : Nat := ds.foldl (fun a c => a * 10 + digitVal c) 0

/-- ASCII lower-casing on character codes (exactly what `Char.toLower`
computes). -/
def lowN (n : Nat) : Nat := if 65 ≤ n ∧ n ≤ 90 then n + 32 else n

/-- Case-insensitive character comparison (`re.I`, ASCII case folding). -/
def ciEq (a b : Char) : Bool := lowN a.toNat = lowN b.toNat

/-- Strip the literal `pat` (case-insensitively) from the front of `cs`,
returning the rest. Models matching a literal inside a pattern compiled
with `re.I`. -/
def stripCi : List Char → List Char → Option (List Char)
  | [], cs => some cs
  | _ :: _, [] => none
  | p :: ps, c :: cs => if ciEq p c then stripCi ps cs else none

/-- Word-boundary test `\b` between two adjacent positions: `a` is the
character before the boundary (`none` at the string edge), `b` the one
after. -/
def wordBoundary (a b : Option Char) : Bool :=
  (match a with | none => false | some c => wordChar c) ≠
  (match b with | none => false | some c => wordChar c)

/-! ### Dates (`datetime.date` model) -/

/-- A calendar date, as `datetime.date`: valid values have
`1 ≤ year ≤ 9999`, `1 ≤ month ≤ 12`, `1 ≤ day ≤ daysInMonth`. -/
structure Date where
  year : Nat
  month : Nat
  day : Nat
deriving DecidableEq, Repr

/-- Gregorian leap-year rule, as `calendar.isleap` / `datetime`. -/
def isLeap (y : Nat) : Bool := y % 4 = 0 ∧ (y % 100 ≠ 0 ∨ y % 400 = 0)

/-- Length of month `m` in year `y` (months 1..12). -/
def daysInMonth (y m : Nat) : Nat :=
  if m = 2 then (if isLeap y then 29 else 28)
  else if m = 4 ∨ m = 6 ∨ m = 9 ∨ m = 11 then 30
  else 31

/-- `datetime.date(y, m, d)`: `some` exactly when the constructor would not
raise `ValueError` (and the year is within `MINYEAR..MAXYEAR`). -/
def mkDate (y m d : Nat) : Option Date :=
  if 1 ≤ y ∧ y ≤ 9999 ∧ 1 ≤ m ∧ m ≤ 12 ∧ 1 ≤ d ∧ d ≤ daysInMonth y m then
    some ⟨y, m, d⟩
  else none

/-- Python `date` comparison `a < b` (lexicographic on (year, month, day)). -/
def dateLt (a b : Date) : Bool :=
  if a.year ≠ b.year then a.year < b.year
  else if a.month ≠ b.month then a.month < b.month
  else a.day < b.day

/-- Python `date` comparison `a <= b`. -/
def dateLe (a b : Date) : Bool :=
  if a.year ≠ b.year then a.year < b.year
  else if a.month ≠ b.month then a.month < b.month
  else a.day ≤ b.day

/-- Successor day of a date (used to model `timedelta` addition). -/
def nextDay (d : Date) : Date :=
  if d.day < daysInMonth d.year d.month then ⟨d.year, d.month, d.day + 1⟩
  else if d.month < 12 then ⟨d.year, d.month + 1, 1⟩
  else ⟨d.year + 1, 1, 1⟩

/-- Predecessor day of a date. -/
def prevDay (d : Date) : Date :=
  if 1 < d.day then ⟨d.year, d.month, d.day - 1⟩
  else if 1 < d.month then ⟨d.year, d.month - 1, daysInMonth d.year (d.month - 1)⟩
  else ⟨d.year - 1, 12, 31⟩

/-- Iterate a step function `n` times over a date. -/
def iterDate (f : Date → Date) : Nat → Date → Date
  | 0, d => d
  | n + 1, d => iterDate f n (f d)

/-- `d + timedelta(days = n)`. The model does not reproduce the
`OverflowError` Python raises past year 9999; all dates handled by the
claims lie well inside the representable range. -/
def addDays (d : Date) (n : Int) : Date :=
  if 0 ≤ n then iterDate nextDay n.toNat d
  else iterDate prevDay (-n).toNat d

/-! ### Line iteration (`iter_lines`) -/

/-- Line-break characters recognised by `str.splitlines`. -/
def lineBreak (c : Char) : Bool :=
  c = '\n' ∨ c = '\r' ∨ c = '\x0b' ∨ c = '\x0c' ∨ c = '\x1c' ∨ c = '\x1d' ∨
  c = '\x1e' ∨ c = '\x85' ∨ c = ' ' ∨ c = ' '

/-- `str.splitlines`, accumulator-style; `\r\n` counts as one break. A
trailing empty segment (absent in Python's result) is produced here but is
removed by the non-empty filter of `iter_lines`, which is the only caller. -/
def splitLinesAux : List Char → List Char → List (List Char)
  | [], cur => [cur.reverse]
  | '\r' :: '\n' :: cs, cur => cur.reverse :: splitLinesAux cs []
  | c :: cs, cur =>
    if lineBreak c then cur.reverse :: splitLinesAux cs []
    else splitLinesAux cs (c :: cur)

/-- `str.strip()` on a list of characters. -/
def pyStrip (cs : List Char) : List Char :=
  ((cs.dropWhile pySpace).reverse.dropWhile pySpace).reverse

/-- `iter_lines`: split the text into lines, strip each, keep the non-empty
ones. -/
def iter_lines (txt : String) : List String :=
  ((splitLinesAux txt.data []).map pyStrip).filterMap
    (fun l => if l.isEmpty then none else some (String.mk l))

/-! ### Semester detection (`detect_semester`) -/

/-- Search for one keyword of `kws1`, then `\s*`, then one keyword of
`kws2`, anywhere in the text (no word boundaries, as in
`SEMESTER_PATTERNS`). Fuel-driven scan over start positions. -/
def semSearchAux (kws1 kws2 : List (List Char)) : Nat → List Char → Bool
  | 0, _ => false
  | _ + 1, [] => false
  | fuel + 1, c :: cs =>
    (kws1.any fun k =>
      match stripCi k (c :: cs) with
      | none => false
      | some r1 =>
        let r2 := r1.dropWhile pySpace
        kws2.any fun k2 => (stripCi k2 r2).isSome) ||
    semSearchAux kws1 kws2 fuel cs

/-- `SEMESTER_PATTERNS` applied in order; returns the semester code of the
first pattern that matches anywhere in the text. -/
def detect_semester (text : String) : Option String :=
  let cs := text.data
  if semSearchAux [['f','a','l','l'], ['a','u','t','u','m','n']]
      [['s','e','m','e','s','t','e','r'], ['t','e','r','m'], ['s','e','s','s','i','o','n']]
      cs.length cs then some "F"
  else if semSearchAux [['w','i','n','t','e','r']]
      [['s','e','m','e','s','t','e','r'], ['t','e','r','m'], ['s','e','s','s','i','o','n']]
      cs.length cs then some "S"
  else if semSearchAux [['s','u','m','m','e','r']]
      [['s','e','m','e','s','t','e','r'], ['t','e','r','m'], ['s','e','s','s','i','o','n']]
      cs.length cs then some "Y"
  else none

/-! ### Title classifier (`smart_title` and `TITLE_RULES`) -/

/-- Search for the pattern `TT\d+` (rule 1 of `TITLE_RULES`): the literal
`tt` (case-insensitive) followed by at least one digit. Returns the maximal
digit run, which is `m.group(0)[2:]`. -/
def searchTTAux : Nat → List Char → Option (List Char)
  | 0, _ => none
  | _ + 1, [] => none
  | fuel + 1, c :: cs =>
    match stripCi ['t', 't'] (c :: cs) with
    | some r =>
      let ds := r.takeWhile pyDigit
      if ds.isEmpty then searchTTAux fuel cs else some ds
    | none => searchTTAux fuel cs

/-- Search for `kw` (case-insensitive) followed by `\s*` and at least one
digit, the shape of the `quiz`/`activity`/`PCA`/`assignment`/`project`
rules. Returns the maximal digit run (`m.group(1)`). -/
def searchKwNumAux (kw : List Char) : Nat → List Char → Option (List Char)
  | 0, _ => none
  | _ + 1, [] => none
  | fuel + 1, c :: cs =>
    match stripCi kw (c :: cs) with
    | some r =>
      let ds := (r.dropWhile pySpace).takeWhile pyDigit
      if ds.isEmpty then searchKwNumAux kw fuel cs else some ds
    | none => searchKwNumAux kw fuel cs

/-- Search for a bare keyword (case-insensitive substring), the shape of the
`scavenger`/`midterm` rules. -/
def searchKwAux (kw : List Char) : Nat → List Char → Bool
  | 0, _ => false
  | _ + 1, [] => false
  | fuel + 1, c :: cs =>
    (stripCi kw (c :: cs)).isSome || searchKwAux kw fuel cs

/-- Search for `final\s*exam` (rule 9). -/
def searchFinalExamAux : Nat → List Char → Bool
  | 0, _ => false
  | _ + 1, [] => false
  | fuel + 1, c :: cs =>
    (match stripCi ['f','i','n','a','l'] (c :: cs) with
     | none => false
     | some r => (stripCi ['e','x','a','m'] (r.dropWhile pySpace)).isSome) ||
    searchFinalExamAux fuel cs

def searchTT (cs : List Char) : Option (List Char) := searchTTAux cs.length cs
def searchKwNum (kw : String) (cs : List Char) : Option (List Char) :=
  searchKwNumAux kw.data cs.length cs
def searchKw (kw : String) (cs : List Char) : Bool := searchKwAux kw.data cs.length cs
def searchFinalExam (cs : List Char) : Bool := searchFinalExamAux cs.length cs

/-- Leading-junk pattern of the fallback: `^[•*\-\s]+`. -/
def bulletChar (c : Char) : Bool := c = '•' ∨ c = '*' ∨ c = '-' ∨ pySpace c

/-- Fallback branch of `smart_title`:
`clean = re.sub(r"^[•*\-\s]+", "", line).strip()`, then the placeholder /
truncation logic. -/
def fallbackOf (clean : List Char) : String :=
  if clean.isEmpty then "Event"
  else if clean.length > 80 then String.mk (clean.take 77) ++ "…"
  else String.mk clean

def smartTitleFallback (cs : List Char) : String :=
  fallbackOf (pyStrip (cs.dropWhile bulletChar))

/-- `smart_title`: the ordered `TITLE_RULES` list, first match wins, then
the cleaned/truncated fallback. Total; never returns the empty string. -/
def smartTitleCore (cs : List Char) : String :=
  match searchTT cs with
  | some ds => "Term Test " ++ String.mk ds
  | none =>
  match searchKwNum "quiz" cs with
  | some ds => "Tutorial Quiz " ++ String.mk ds
  | none =>
  match searchKwNum "activity" cs with
  | some ds => "Tutorial Activity " ++ String.mk ds
  | none =>
  match searchKwNum "pca" cs with
  | some ds => "PCA " ++ String.mk ds ++ " due"
  | none =>
  if searchKw "scavenger" cs then "Syllabus Scavenger Hunt"
  else
  match searchKwNum "assignment" cs with
  | some ds => "Assignment " ++ String.mk ds ++ " due"
  | none =>
  match searchKwNum "project" cs with
  | some ds => "Project " ++ String.mk ds ++ " due"
  | none =>
  if searchKw "midterm" cs then "Midterm Exam"
  else if searchFinalExam cs then "Final Exam"
  else smartTitleFallback cs

def smart_title (line : String) : String := smartTitleCore line.data

/-! ### Date recognizer (`ABS_RE`, `NUM_RE`, `WEEK_RE`, `_abs_date`,
`parse_dates`)

The regular expressions are embedded as explicit backtracking matchers: each
greedy quantifier or optional group becomes an ordered list of candidate
continuations tried first-to-last (`List.findSome?`), which is exactly the
backtracking order of Python's `re` engine on these patterns. -/

/-- Boundary `\b` sitting right after a consumed character: `lastWord` is
the word-ness of that character, `cs` the remaining input. -/
def bAfter (lastWord : Bool) (cs : List Char) : Bool :=
  lastWord ≠ (match cs with | [] => false | c :: _ => wordChar c)

/-- Boundary `\b` right after a word character (digit or letter). -/
def bAfterWord (cs : List Char) : Bool := bAfter true cs

/-- Greedy candidates of `\d{lo,hi}`: the pairs (digits taken, rest), from
the longest take down to `lo` digits, in backtracking order. -/
def digitRunTakes (lo hi : Nat) (cs : List Char) : List (List Char × List Char) :=
  let run := cs.takeWhile pyDigit
  (List.range (min hi run.length + 1)).reverse.filterMap fun n =>
    if lo ≤ n then some (run.take n, cs.drop n) else none

/-- The month-name alternation of `MONTH`, with the month number `strptime`
assigns to the three-letter prefix `month[:3]`. The alternatives are tried
in the pattern's order; `"Sept"` is unreachable (after `"Sep"` matches,
`[a-z]*` consumes the `t`) but kept for fidelity. -/
def monthPfxTable : List (String × Nat) :=
  [("Jan", 1), ("Feb", 2), ("Mar", 3), ("Apr", 4), ("May", 5), ("Jun", 6),
   ("Jul", 7), ("Aug", 8), ("Sep", 9), ("Sept", 9), ("Oct", 10), ("Nov", 11),
   ("Dec", 12)]

/-- Match `MONTH` = `(?:Jan|...|Dec)[a-z]*` (the optional dot is handled by
each branch): returns the month number and the rest after the greedy letter
run. -/
def matchMonth (cs : List Char) : Option (Nat × List Char) :=
  monthPfxTable.findSome? fun pn =>
    (stripCi pn.1.data cs).map fun r => (pn.2, r.dropWhile asciiLetter)

/-- The named capture groups `_abs_date` reads from an `ABS_RE` match. -/
structure AbsG where
  month : Nat
  day : Nat
  year : Option Nat
deriving DecidableEq, Repr

/-- Candidates of the optional day-range suffix `(?:[–-]\d{1,2})?`
(greedy): match the content first (2 then 1 digits), then skip. -/
def rangeTakes (cs : List Char) : List (List Char) :=
  (match cs with
   | d :: rest =>
     if d = '–' ∨ d = '-' then (digitRunTakes 1 2 rest).map (·.2) else []
   | [] => []) ++ [cs]

/-- Candidates of the optional year group `(?:,?\s*(?P<year>\d{4}))?`
(greedy): the comma, if present, must be consumed (skipping it leaves the
comma facing `\s*\d{4}`, which fails), then `\s*`, then exactly four
digits; finally the skip alternative. -/
def yearTakes (cs : List Char) : List (Option Nat × List Char) :=
  (let cs1 := match cs with | ',' :: r => r | _ => cs
   let cs2 := cs1.dropWhile pySpace
   (digitRunTakes 4 4 cs2).map fun p => (some (digitsVal p.1), p.2)) ++
  [(none, cs)]

/-- Branch 1 of `ABS_RE`:
`(?P<month>M)\s*(?P<day>\d{1,2})(?:[–-]\d{1,2})?(?:,?\s*(?P<year>\d{4}))?`.
Every way this branch can end consumes a digit last, so the trailing `\b`
needs a non-word continuation. Returns the groups, the word-ness of the
last consumed character and the rest. -/
def tryB1 (cs : List Char) : Option (AbsG × Bool × List Char) :=
  (matchMonth cs).bind fun mnr =>
  let r2 := match mnr.2 with | '.' :: r => r | r => r
  let r3 := r2.dropWhile pySpace
  (digitRunTakes 1 2 r3).findSome? fun dayr =>
  (rangeTakes dayr.2).findSome? fun r5 =>
  (yearTakes r5).findSome? fun yrr =>
  if bAfterWord yrr.2 then
    some (⟨mnr.1, digitsVal dayr.1, yrr.1⟩, true, yrr.2)
  else none

/-- Candidates of `\.?` when the dot is not followed by mandatory material
(branch 2): take the dot (last char `.`, not a word character), then skip
(last char is the final month letter, a word character). -/
def dotTakes (cs : List Char) : List (Bool × List Char) :=
  match cs with
  | '.' :: r => [(false, r), (true, cs)]
  | _ => [(true, cs)]

/-- Branch 2 of `ABS_RE`:
`(?P<day2>\d{1,2})\s+(?P<month2>M)(?:,?\s*(?P<year2>\d{4}))?`. -/
def tryB2 (cs : List Char) : Option (AbsG × Bool × List Char) :=
  (digitRunTakes 1 2 cs).findSome? fun dayr =>
  if (dayr.2.takeWhile pySpace).isEmpty then none
  else
    let r2 := dayr.2.dropWhile pySpace
    (matchMonth r2).bind fun mnr =>
    (dotTakes mnr.2).findSome? fun dotr =>
    (yearTakes dotr.2).findSome? fun yrr =>
    let lastW := match yrr.1 with | some _ => true | none => dotr.1
    if bAfter lastW yrr.2 then
      some (⟨mnr.1, digitsVal dayr.1, yrr.1⟩, lastW, yrr.2)
    else none

/-- Candidates of the ordinal suffix `(?:st|nd|rd|th)?` (greedy,
case-insensitive). -/
def ordTakes (cs : List Char) : List (List Char) :=
  (["st", "nd", "rd", "th"].filterMap fun suf => stripCi suf.data cs) ++ [cs]

/-- Branch 3 of `ABS_RE`:
`(?P<month3>M)\s*(?P<day3>\d{1,2})(?:st|nd|rd|th)?(?:,?\s*(?P<year3>\d{4}))?`.
All endings (day digit, ordinal letter, year digit) are word characters. -/
def tryB3 (cs : List Char) : Option (AbsG × Bool × List Char) :=
  (matchMonth cs).bind fun mnr =>
  let r2 := match mnr.2 with | '.' :: r => r | r => r
  let r3 := r2.dropWhile pySpace
  (digitRunTakes 1 2 r3).findSome? fun dayr =>
  (ordTakes dayr.2).findSome? fun r5 =>
  (yearTakes r5).findSome? fun yrr =>
  if bAfterWord yrr.2 then
    some (⟨mnr.1, digitsVal dayr.1, yrr.1⟩, true, yrr.2)
  else none

/-- One attempt of `ABS_RE` at the current position (the three branches in
alternation order). -/
def tryAbs (cs : List Char) : Option (AbsG × Bool × List Char) :=
  tryB1 cs <|> tryB2 cs <|> tryB3 cs

/-- `ABS_RE.finditer`: scan every position, requiring the leading `\b`
(`prevW` is the word-ness of the previous character), and resume after each
match. -/
def absScanAux : Nat → Bool → List Char → List AbsG
  | 0, _, _ => []
  | _ + 1, _, [] => []
  | fuel + 1, prevW, c :: cs =>
    if prevW ≠ wordChar c then
      match tryAbs (c :: cs) with
      | some (g, lastW, rest) => g :: absScanAux fuel lastW rest
      | none => absScanAux fuel (wordChar c) cs
    else absScanAux fuel (wordChar c) cs

def absFinditer (cs : List Char) : List AbsG := absScanAux cs.length false cs

/-- `_abs_date`: convert the captured groups of one `ABS_RE` match to a
date.
* `strptime(f"{month} {day} {yr}", "%b %d %Y")` requires the year to print
  as exactly four digits (`%Y` matches `\d\d\d\d`), and validates the day
  against the month, which `mkDate` models.
* The Fall rollover guard tests `not yr` where `yr` has already been
  rebound to `int(yr) if yr else year`, so it only fires for `yr = 0` — a
  value `strptime` has already rejected. The rollover is therefore dead
  code; it is embedded faithfully. -/
def abs_date (g : AbsG) (start : Date) : Option Date :=
  let yr := g.year.getD start.year
  if yr < 1000 ∨ 9999 < yr then none
  else
    match mkDate yr g.month g.day with
    | none => none
    | some d =>
      if dateLt d start ∧ 8 ≤ start.month ∧ yr = 0 then
        mkDate (d.year + 1) d.month d.day
      else some d

/-- First alternative of `NUM_RE`: one or two digits, a slash-or-hyphen
separator, one or two digits, a separator, then two to four digits.
Returns the matched text and the rest; the last consumed character is
always a digit. -/
def tryNum1 (cs : List Char) : Option (List Char × List Char) :=
  (digitRunTakes 1 2 cs).findSome? fun p1 =>
  match p1.2 with
  | s1 :: r2 =>
    if s1 = '/' ∨ s1 = '-' then
      (digitRunTakes 1 2 r2).findSome? fun p2 =>
      match p2.2 with
      | s2 :: r4 =>
        if s2 = '/' ∨ s2 = '-' then
          (digitRunTakes 2 4 r4).findSome? fun p3 =>
          if bAfterWord p3.2 then
            some (p1.1 ++ s1 :: p2.1 ++ s2 :: p3.1, p3.2)
          else none
        else none
      | [] => none
    else none
  | [] => none

/-- Second alternative of `NUM_RE`: four digits, a slash-or-hyphen
separator, one or two digits, a separator, then one or two digits. -/
def tryNum2 (cs : List Char) : Option (List Char × List Char) :=
  (digitRunTakes 4 4 cs).findSome? fun p1 =>
  match p1.2 with
  | s1 :: r2 =>
    if s1 = '/' ∨ s1 = '-' then
      (digitRunTakes 1 2 r2).findSome? fun p2 =>
      match p2.2 with
      | s2 :: r4 =>
        if s2 = '/' ∨ s2 = '-' then
          (digitRunTakes 1 2 r4).findSome? fun p3 =>
          if bAfterWord p3.2 then
            some (p1.1 ++ s1 :: p2.1 ++ s2 :: p3.1, p3.2)
          else none
        else none
      | [] => none
    else none
  | [] => none

def tryNum (cs : List Char) : Option (List Char × List Char) :=
  tryNum1 cs <|> tryNum2 cs

/-- `NUM_RE.finditer` (matched texts only; the matches always end in a
digit, a word character). -/
def numScanAux : Nat → Bool → List Char → List (List Char)
  | 0, _, _ => []
  | _ + 1, _, [] => []
  | fuel + 1, prevW, c :: cs =>
    if prevW ≠ wordChar c then
      match tryNum (c :: cs) with
      | some (txt, rest) => txt :: numScanAux fuel true rest
      | none => numScanAux fuel (wordChar c) cs
    else numScanAux fuel (wordChar c) cs

def numFinditer (cs : List Char) : List (List Char) := numScanAux cs.length false cs

/-- `strptime` component `%d`: regex `3[01]|[12]\d|0[1-9]|[1-9]`, in
alternation order. -/
def dComp (cs : List Char) : List (Nat × List Char) :=
  (match cs with
   | a :: b :: r =>
     (if a = '3' ∧ (b = '0' ∨ b = '1') then [(digitsVal [a, b], r)] else []) ++
     (if (a = '1' ∨ a = '2') ∧ pyDigit b then [(digitsVal [a, b], r)] else []) ++
     (if a = '0' ∧ pyDigit b ∧ b ≠ '0' then [(digitsVal [a, b], r)] else [])
   | _ => []) ++
  (match cs with
   | a :: r => if pyDigit a ∧ a ≠ '0' then [(digitVal a, r)] else []
   | [] => [])

/-- `strptime` component `%m`: regex `1[0-2]|0[1-9]|[1-9]`. -/
def mComp (cs : List Char) : List (Nat × List Char) :=
  (match cs with
   | a :: b :: r =>
     (if a = '1' ∧ (b = '0' ∨ b = '1' ∨ b = '2') then [(digitsVal [a, b], r)] else []) ++
     (if a = '0' ∧ pyDigit b ∧ b ≠ '0' then [(digitsVal [a, b], r)] else [])
   | _ => []) ++
  (match cs with
   | a :: r => if pyDigit a ∧ a ≠ '0' then [(digitVal a, r)] else []
   | [] => [])

/-- `strptime` component `%Y`: exactly four digits. -/
def yComp (cs : List Char) : List (Nat × List Char) :=
  match cs with
  | a :: b :: c :: d :: r =>
    if pyDigit a ∧ pyDigit b ∧ pyDigit c ∧ pyDigit d then
      [(digitsVal [a, b, c, d], r)] else []
  | _ => []

/-- `strptime` on one of the six numeric formats: three components joined
by a fixed separator, the whole string consumed, then `datetime`
validation via `mk`. -/
def tryFmt (c1 c2 c3 : List Char → List (Nat × List Char)) (sep : Char)
    (mk : Nat → Nat → Nat → Option Date) (cs : List Char) : Option Date :=
  (c1 cs).findSome? fun v1 =>
  match v1.2 with
  | s :: r2 =>
    if s = sep then
      (c2 r2).findSome? fun v2 =>
      match v2.2 with
      | s2 :: r4 =>
        if s2 = sep then
          (c3 r4).findSome? fun v3 =>
          if v3.2.isEmpty then mk v1.1 v2.1 v3.1 else none
        else none
      | [] => none
    else none
  | [] => none

/-- Two-digit-year fix-up `if d.year < 100: d = d.replace(year=2000+d.year)`,
applied inside the per-format `try` (a failure falls through to the next
format). As no format contains `%y`, a year below 100 can only arise from a
zero-padded `%Y` match such as `0050`. -/
def fix2dig (od : Option Date) : Option Date :=
  od.bind fun d =>
    if d.year < 100 then mkDate (2000 + d.year) d.month d.day else some d

/-- The ordered `strptime` format list of `parse_dates`:
`%d/%m/%Y, %m/%d/%Y, %Y/%m/%d, %d-%m-%Y, %m-%d-%Y, %Y-%m-%d`; the first
format that fully parses (including the two-digit-year fix-up) wins. -/
def numParse (txt : List Char) : Option Date :=
  ([tryFmt dComp mComp yComp '/' (fun d m y => mkDate y m d),
    tryFmt mComp dComp yComp '/' (fun m d y => mkDate y m d),
    tryFmt yComp mComp dComp '/' (fun y m d => mkDate y m d),
    tryFmt dComp mComp yComp '-' (fun d m y => mkDate y m d),
    tryFmt mComp dComp yComp '-' (fun m d y => mkDate y m d),
    tryFmt yComp mComp dComp '-' (fun y m d => mkDate y m d)] :
      List (List Char → Option Date)).findSome? fun f => fix2dig (f txt)

/-- One attempt of `WEEK_RE` = `\b(?:week|wk)\s*(\d{1,2})\b` at the current
position; returns the captured week number. -/
def tryWeek (cs : List Char) : Option (Nat × List Char) :=
  (stripCi ['w','e','e','k'] cs <|> stripCi ['w','k'] cs).bind fun r1 =>
  (digitRunTakes 1 2 (r1.dropWhile pySpace)).findSome? fun p =>
  if bAfterWord p.2 then some (digitsVal p.1, p.2) else none

/-- `WEEK_RE.finditer` (captured week numbers). -/
def weekScanAux : Nat → Bool → List Char → List Nat
  | 0, _, _ => []
  | _ + 1, _, [] => []
  | fuel + 1, prevW, c :: cs =>
    if prevW ≠ wordChar c then
      match tryWeek (c :: cs) with
      | some (n, rest) => n :: weekScanAux fuel true rest
      | none => weekScanAux fuel (wordChar c) cs
    else weekScanAux fuel (wordChar c) cs

def weekFinditer (cs : List Char) : List Nat := weekScanAux cs.length false cs

/-- `parse_dates`: the absolute textual matches (in order, failures
dropped), then the numeric matches. -/
def parse_dates (line : String) (start : Date) : List Date :=
  ((absFinditer line.data).filterMap fun g => abs_date g start) ++
  ((numFinditer line.data).filterMap numParse)

/-! ### Contextual resolver (`contextual_title`) -/

/-- `WEEK_RE.fullmatch(title)`: the whole string is `(?:week|wk)\s*\d{1,2}`
(the two `\b` anchors hold automatically at the string edges). The two
keyword alternatives are mutually exclusive, and a digit run of length ≥ 3
can never be consumed entirely, so the match is deterministic. -/
def weekFull (s : String) : Bool :=
  match stripCi ['w','e','e','k'] s.data <|> stripCi ['w','k'] s.data with
  | none => false
  | some r1 =>
    let r2 := r1.dropWhile pySpace
    let ds := r2.takeWhile pyDigit
    1 ≤ ds.length ∧ ds.length ≤ 2 ∧ (r2.drop ds.length).isEmpty

/-- The date-only full match used by `contextual_title`:
`re.fullmatch(MONTH + "\s*\d{1,2}(?:,\s*\d{4})?", title, re.I)`. -/
def dateOnlyFull (s : String) : Bool :=
  match matchMonth s.data with
  | none => false
  | some mnr =>
    let r2 := match mnr.2 with | '.' :: r => r | r => r
    let r3 := r2.dropWhile pySpace
    let ds := r3.takeWhile pyDigit
    if 1 ≤ ds.length ∧ ds.length ≤ 2 then
      let r4 := r3.drop ds.length
      r4.isEmpty ||
        (match r4 with
         | ',' :: r5 =>
           let r6 := r5.dropWhile pySpace
           let ys := r6.takeWhile pyDigit
           ys.length = 4 ∧ (r6.drop 4).isEmpty
         | _ => false)
    else false

/-- A title that still looks like a bare week or bare date label (the
condition guarding the context search in `contextual_title`). -/
def uninfTitle (t : String) : Bool := weekFull t ∨ dateOnlyFull t

/-- One of the two context-search loops of `contextual_title`: classify
each candidate line and return the first classified title that is not a
bare week label. (Both loops share this body; the backward loop runs it on
`window.reverse`, the forward loop on `buffer`.) -/
def scanCand : List String → Option String
  | [] => none
  | p :: ps =>
    let cand := smart_title p
    if weekFull cand then scanCand ps else some cand

/-- `contextual_title`: resolve an uninformative title from the backward
window (most recent first) or, failing that, the forward buffer; the final
`title or "Event"` of the source is the last match. -/
def contextual_title (window buffer : List String) (raw : String) : String :=
  let title := smart_title raw
  let sub :=
    if uninfTitle title then
      match scanCand window.reverse with
      | some c => some c
      | none => scanCand buffer
    else none
  match sub with
  | some c => c
  | none => if title = "" then "Event" else title

/-! ### Extraction orchestrator (`extract_events`) -/

/-- An extracted event: the `(date, title)` pair. -/
abbrev Ev := Date × String

/-- Append an event unless its key is already in the seen set
(`if key not in seen: evts.append(key); seen.add(key)`). The seen set is a
list read only through membership. -/
def pushEvt (acc : List Ev × List Ev) (k : Ev) : List Ev × List Ev :=
  if k ∈ acc.2 then acc else (acc.1 ++ [k], acc.2 ++ [k])

/-- `start + timedelta(weeks=n - 1, days=offset)` for a `Week n` mention. -/
def week_date (start : Date) (n : Nat) (offset : Int) : Date :=
  addDays start (7 * ((n : Int) - 1) + offset)

/-- The window update of step 7: append the current line, evict the oldest
line beyond `BACKSCAN_LINES = 3`. -/
def pushWindow (window : List String) (line : String) : List String :=
  if (window ++ [line]).length > 3 then (window ++ [line]).drop 1
  else window ++ [line]

/-- The per-line loop of `extract_events`: absolute-date candidates first,
then week candidates, then the sliding window update. The forward buffer
`lines[idx+1 : idx+1+LOOKAHEAD_LINES]` is exactly the first four elements
of the unprocessed rest. -/
def extractLoop (start : Date) (offset : Int) :
    List String → List Ev → List Ev → List String → List Ev
  | [], evts, _, _ => evts
  | line :: rest, evts, seen, window =>
    extractLoop start offset rest
      ((weekFinditer line.data).foldl
        (fun acc n => pushEvt acc (week_date start n offset,
          contextual_title window (rest.take 4) line))
        ((parse_dates line start).foldl
          (fun acc d => pushEvt acc (d, contextual_title window (rest.take 4) line))
          (evts, seen))).1
      ((weekFinditer line.data).foldl
        (fun acc n => pushEvt acc (week_date start n offset,
          contextual_title window (rest.take 4) line))
        ((parse_dates line start).foldl
          (fun acc d => pushEvt acc (d, contextual_title window (rest.take 4) line))
          (evts, seen))).2
      (pushWindow window line)

/-- `extract_events(text, start, offset)`. Two pieces of ambient state of
the source are made explicit: `endd` is the module-level `end` date the
semester branch reads, and `uoft` is the row list the network fetch
`fetch_uoft_calendar()` would return. Note the faithful quirk of the
semester branch: the event list receives the `"UofT: "`-prefixed title
while the seen set records the unprefixed one. -/
def extract_events (text : String) (start : Date) (offset : Int) (endd : Date)
    (uoft : List Ev) : List Ev :=
  let lines := iter_lines text
  let init : List Ev × List Ev :=
    match detect_semester text with
    | some _ =>
      uoft.foldl (fun acc dt =>
        if dateLe start dt.1 ∧ dateLe dt.1 endd then
          (acc.1 ++ [(dt.1, "UofT: " ++ dt.2)], acc.2 ++ [dt])
        else acc) ([], [])
    | none => ([], [])
  extractLoop start offset lines init.1 init.2 []

/-! ### Text normalizer (`cleaned`, line 273) -/

/-- Match `MONTH_BRK` at the current position:
`((?:Jan|...|Dec)[a-z]*\.)\s*\n\s*(\d{1,2})` under `re.I`. Like
`matchMonth` but the original matched month text is kept for the
backreference. The whitespace run after the dot must contain a newline and
is consumed entirely (its successor must be a digit); the trailing
`\d{1,2}` greedily takes up to two digits. Returns
(group 1 text, group 2 digits, rest). -/
def matchMonthText (cs : List Char) : Option (List Char × List Char) :=
  monthPfxTable.findSome? fun pn =>
    (stripCi pn.1.data cs).map fun r =>
      let ls := r.takeWhile asciiLetter
      (cs.take pn.1.data.length ++ ls, r.drop ls.length)

def brkMatchAt (cs : List Char) : Option (List Char × List Char × List Char) :=
  (matchMonthText cs).bind fun mt =>
  match mt.2 with
  | '.' :: r2 =>
    let ws := r2.takeWhile pySpace
    if '\n' ∈ ws then
      let r3 := r2.drop ws.length
      let ds := r3.takeWhile pyDigit
      if ds.isEmpty then none
      else some (mt.1 ++ ['.'], ds.take 2, r3.drop (min 2 ds.length))
    else none
  | _ => none

/-- `MONTH_BRK.sub(r"\1 \2", ·)`: leftmost non-overlapping matches replaced
by group 1, a space, group 2; replacements are not rescanned. -/
def brkSubAux : Nat → List Char → List Char
  | 0, cs => cs
  | _ + 1, [] => []
  | fuel + 1, c :: cs =>
    match brkMatchAt (c :: cs) with
    | some (g1, g2, rest) => g1 ++ ' ' :: (g2 ++ brkSubAux fuel rest)
    | none => c :: brkSubAux fuel cs

def month_brk_sub (cs : List Char) : List Char := brkSubAux cs.length cs

/-- Line 273:
`cleaned = MONTH_BRK.sub(r"\1 \2", raw_text.replace(NBSP, " ").replace(EN_DASH, "-"))`. -/
def cleanedText (text : String) : String :=
  String.mk (month_brk_sub
    ((text.data.map fun c => if c = '\xa0' then ' ' else c).map
      fun c => if c = '–' then '-' else c))

/-! ### Final assembly (lines 275-290): range filter, supplementary merge,
DataFrame deduplication and sort -/

def inRange (start endd : Date) (d : Date) : Bool :=
  dateLe start d ∧ dateLe d endd

/-- The event list the export buttons receive (`evts` at line 322):
normalized text extracted, filtered to `[start, end]`, then the
supplementary UofT rows appended (again) with the `"UofT: "` prefix, with
no deduplication and no sort. `uoftA` and `uoftB` are the results of the
two independent calendar fetches (inside `extract_events` and at line
281). -/
def ui_events (raw : String) (start endd : Date) (uoftA uoftB : List Ev) : List Ev :=
  let evts := (extract_events (cleanedText raw) start 0 endd uoftA).filter
    fun e => inRange start endd e.1
  evts ++ uoftB.filterMap fun dt =>
    if inRange start endd dt.1 then some (dt.1, "UofT: " ++ dt.2) else none

/-- Keep-first deduplication by the whole `(date, title)` row, as
`DataFrame.drop_duplicates()` (the ISO date string determines the date and
conversely). -/
def dedupFirstAux (seen : List Ev) : List Ev → List Ev
  | [] => []
  | k :: ks =>
    if k ∈ seen then dedupFirstAux seen ks
    else k :: dedupFirstAux (k :: seen) ks

def dedupFirst (l : List Ev) : List Ev := dedupFirstAux [] l

/-- Row order `a ≤ b` of the DataFrame sort: by the `Date` column only.
Comparison of the zero-padded ISO-8601 date strings pandas actually sorts
coincides with `dateLe` on `datetime` dates. -/
def evLe (a b : Ev) : Prop := dateLe a.1 b.1 = true

instance : DecidableRel evLe := fun a b =>
  inferInstanceAs (Decidable (dateLe a.1 b.1 = true))

/-- The row sequence of the rendered DataFrame
(`df = DataFrame(...).drop_duplicates().sort_values("Date")`). The sort is
modelled by insertion sort; `sort_values` with its default unstable kind
guarantees only sortedness by date and membership, which are the
properties proved about this model — the model's tie order is not claimed
to be pandas's. -/
def df_rows (raw : String) (start endd : Date) (uoftA uoftB : List Ev) : List Ev :=
  List.insertionSort evLe (dedupFirst (ui_events raw start endd uoftA uoftB))

/-! ### Spec-side definitions used by the claims

These definitions follow the wording of the specification (or of an
amended claim) rather than the source; the theorems below compare them
with the source-derived definitions above. -/

/-- Resolver behaviour in the amended wording of C2: when the classified
title is uninformative, substitute the first classified title of the
backward window (most recent first) followed by the forward buffer that is
not a bare week-only label; date-only candidate titles are accepted as
substitutes. -/
def resolverSpec (window buffer : List String) (raw : String) : String :=
  let title := smart_title raw
  if uninfTitle title then
    match ((window.reverse ++ buffer).map smart_title).find? (fun c => !(weekFull c)) with
    | some c => c
    | none => if title = "" then "Event" else title
  else if title = "" then "Event" else title

/-! ### Supporting lemmas -/

theorem str_append_ne_empty_left (a b : String) (h : a.data ≠ []) : a ++ b ≠ "" := by
  intro he
  apply h
  have hd := congrArg String.data he
  rw [String.data_append] at hd
  simpa using (List.append_eq_nil.mp hd).1

theorem str_append_ne_empty_right (a b : String) (h : b.data ≠ []) : a ++ b ≠ "" := by
  intro he
  apply h
  have hd := congrArg String.data he
  rw [String.data_append] at hd
  simpa using (List.append_eq_nil.mp hd).2

theorem fallbackOf_ne_empty (clean : List Char) : fallbackOf clean ≠ "" := by
  unfold fallbackOf
  split
  · decide
  · split
    · exact str_append_ne_empty_right _ _ (by decide)
    · rename_i hne _
      intro he
      exact hne (by simpa [List.isEmpty_iff] using congrArg String.data he)

theorem smart_title_ne_empty (line : String) : smart_title line ≠ "" := by
  unfold smart_title smartTitleCore smartTitleFallback
  repeat' split
  all_goals
    first
    | exact str_append_ne_empty_left _ _ (by decide)
    | exact str_append_ne_empty_right _ _ (by decide)
    | decide
    | exact fallbackOf_ne_empty _

theorem scanCand_eq_find? (ls : List String) :
    scanCand ls = (ls.map smart_title).find? (fun c => !(weekFull c)) := by
  induction ls with
  | nil => rfl
  | cons p ps ih =>
    by_cases h : weekFull (smart_title p) = true <;>
      simp [scanCand, List.find?_cons, h, ih]

theorem contextual_title_eq_resolverSpec (window buffer : List String) (raw : String) :
    contextual_title window buffer raw = resolverSpec window buffer raw := by
  unfold contextual_title resolverSpec
  rw [List.map_append, List.find?_append, ← scanCand_eq_find? window.reverse,
    ← scanCand_eq_find? buffer]
  by_cases hu : uninfTitle (smart_title raw) = true <;>
    cases h1 : scanCand window.reverse <;>
    cases h2 : scanCand buffer <;>
    simp [hu, h1, h2, Option.or]

theorem dateLe_total (a b : Date) : dateLe a b = true ∨ dateLe b a = true := by
  unfold dateLe
  split_ifs <;> simp only [decide_eq_true_eq] <;> omega

theorem dateLe_trans_lemma (a b c : Date) (h1 : dateLe a b = true)
    (h2 : dateLe b c = true) : dateLe a c = true := by
  unfold dateLe at h1 h2 ⊢
  split_ifs at h1 h2 ⊢ <;> simp only [decide_eq_true_eq] at * <;> omega

instance : IsTotal Ev evLe := ⟨fun a b => dateLe_total a.1 b.1⟩

instance : IsTrans Ev evLe := ⟨fun a b c => dateLe_trans_lemma a.1 b.1 c.1⟩

theorem dedupFirstAux_nodup (l : List Ev) :
    ∀ seen, (dedupFirstAux seen l).Nodup ∧ ∀ x ∈ dedupFirstAux seen l, x ∉ seen := by
  induction l with
  | nil => intro seen; simp [dedupFirstAux]
  | cons k ks ih =>
    intro seen
    by_cases hk : k ∈ seen
    · simpa [dedupFirstAux, hk] using ih seen
    · obtain ⟨h1, h2⟩ := ih (k :: seen)
      simp only [dedupFirstAux, hk, if_false]
      refine ⟨List.nodup_cons.mpr ⟨fun hx => ?_, h1⟩, ?_⟩
      · exact h2 k hx (List.mem_cons_self k seen)
      · intro x hx
        rcases List.mem_cons.mp hx with rfl | hx'
        · exact hk
        · intro hxs
          exact h2 x hx' (List.mem_cons_of_mem _ hxs)

theorem dedupFirst_nodup (l : List Ev) : (dedupFirst l).Nodup :=
  (dedupFirstAux_nodup l []).1

/-! ### Claim theorems -/

/-- C1. The claim states that a textual absolute date with no explicit year
defaults to the reference year and, when it falls before a fall-term
(month ≥ 8) reference date, is rolled forward one year, so that `"Jan 15"`
with reference start 2024-09-02 yields 2025-01-15. In the code the
rollover guard `d < start and start.month >= 8 and not yr` tests `yr`
after `yr = int(yr) if yr else year` has rebound it to a non-zero integer,
so the rollover never fires, contradicting the code's own comment
("rollover for Fall terms where year isn't specified"): the extracted date
stays 2024-01-15 even though it lies before the fall reference date. -/
theorem c1_jan15_no_rollover :
    parse_dates "Jan 15" ⟨2024, 9, 2⟩ = [⟨2024, 1, 15⟩] ∧
    dateLt ⟨2024, 1, 15⟩ ⟨2024, 9, 2⟩ = true ∧ 8 ≤ (2024 : Nat) % 0 + 9 := by
  exact ⟨by decide, by decide, by omega⟩

/-- C2 (counterexample). The claim says the resolver substitutes only a
neighbouring classified title that is NOT an uninformative week-only or
date-only title. On `"Jan 1\nWeek 3"` the uninformative title `"Week 3"`
is resolved from the backward window to `"Jan 1"` — itself a date-only
title (`dateOnlyFull` holds), which the claim says must be skipped (the
claimed behaviour would retain `"Week 3"`). The code only filters
candidates through `WEEK_RE.fullmatch`. -/
theorem c2_dateonly_candidate_substituted :
    extract_events "Jan 1\nWeek 3" ⟨2024, 9, 2⟩ 0 ⟨2025, 8, 31⟩ [] =
      [(⟨2024, 1, 1⟩, "Jan 1"), (⟨2024, 9, 16⟩, "Jan 1")] ∧
    dateOnlyFull "Jan 1" = true ∧ uninfTitle "Jan 1" = true := by
  exact ⟨by decide, by decide, by decide⟩

/-- C2 (amended). The resolver scans the backward window most-recent-first
and then the forward window in forward order and substitutes the first
neighbouring classified title that is not a bare week-only label (date-only
candidates are accepted); the claim's scenario holds: `"Week 3"` preceded
by `"Quiz 2 assigned"` with reference start 2024-09-02 and offset 0 yields
exactly one event (2024-09-16, `"Tutorial Quiz 2"`). -/
theorem c2_amended_resolver :
    (∀ window buffer raw,
      contextual_title window buffer raw = resolverSpec window buffer raw) ∧
    extract_events "Quiz 2 assigned\nWeek 3" ⟨2024, 9, 2⟩ 0 ⟨2025, 8, 31⟩ [] =
      [(⟨2024, 9, 16⟩, "Tutorial Quiz 2")] := by
  exact ⟨contextual_title_eq_resolverSpec, by decide⟩

/-- C3 (counterexample). The claim says the final event sequence handed to
the rendering/export collaborators is sorted ascending by date. The export
buttons receive `evts` (line 322), which is only range-filtered, never
sorted: a document whose later line carries the earlier date produces a
strictly decreasing export sequence. -/
theorem c3_exports_unsorted :
    ui_events "Quiz 1 Dec 10\nQuiz 2 Oct 1" ⟨2024, 9, 1⟩ ⟨2025, 8, 31⟩ [] [] =
      [(⟨2024, 12, 1⟩, "Tutorial Quiz 1"), (⟨2024, 10, 2⟩, "Tutorial Quiz 2")] ∧
    ¬ List.Sorted evLe
      (ui_events "Quiz 1 Dec 10\nQuiz 2 Oct 1" ⟨2024, 9, 1⟩ ⟨2025, 8, 31⟩ [] []) := by
  exact ⟨by decide, by decide⟩

/-- C3 (amended). The row sequence handed to the calendar-rendering
collaborator (the DataFrame) consists of the in-range events deduplicated
by the whole (date, title) row keeping the first occurrence and sorted
non-decreasing by date (tie order unspecified); the export collaborators
instead receive the range-filtered concatenation in emission order,
unsorted and undeduplicated (definitionally, `ui_events`). -/
theorem c3_amended_widget_sorted :
    ∀ raw s e ua ub,
      List.Sorted evLe (df_rows raw s e ua ub) ∧
      (df_rows raw s e ua ub).Perm (dedupFirst (ui_events raw s e ua ub)) := by
  intro raw s e ua ub
  exact ⟨List.sorted_insertionSort evLe _, List.perm_insertionSort evLe _⟩

/-- C4 (counterexample). The claim says no duplicate (date, title) keys
survive in the final output. When a semester keyword is present, the
supplementary calendar rows are merged twice — once inside
`extract_events` and once at assembly (line 284) — and the export sequence
receives the same (date, `"UofT: ..."`) row twice. -/
theorem c4_duplicate_uoft_rows :
    (ui_events "Fall term\nQuiz 1 Oct 1" ⟨2024, 9, 1⟩ ⟨2024, 12, 31⟩
        [(⟨2024, 10, 5⟩, "Fall Reading Week")]
        [(⟨2024, 10, 5⟩, "Fall Reading Week")]).count
      (⟨2024, 10, 5⟩, "UofT: Fall Reading Week") = 2 := by
  decide

/-- C4 (amended). The deduplication invariant holds for the DataFrame row
sequence handed to the rendering collaborator: `drop_duplicates` keeps the
first occurrence of each (date, title) row, so no duplicate keys survive
there; the sequence handed to the exporters may contain duplicates of
merged supplementary entries. -/
theorem c4_amended_widget_nodup :
    ∀ raw s e ua ub, (df_rows raw s e ua ub).Nodup := by
  intro raw s e ua ub
  exact (List.perm_insertionSort evLe _).symm.nodup (dedupFirst_nodup _)

/-- C5 (counterexample). The claim says no network surface influences the
engine's result. When the text mentions a semester
(`detect_semester ≠ None`), `extract_events` itself calls
`fetch_uoft_calendar()` and merges the fetched rows, so two runs seeing
different network responses produce different outputs for identical
inputs. -/
theorem c5_network_influences_result :
    extract_events "Fall term" ⟨2024, 9, 2⟩ 0 ⟨2025, 8, 31⟩
        [(⟨2024, 10, 5⟩, "Thanksgiving")] ≠
      extract_events "Fall term" ⟨2024, 9, 2⟩ 0 ⟨2025, 8, 31⟩ [] := by
  decide

/-- C5 (amended). For fixed inputs the extraction is deterministic
whenever the document contains no semester marker: the result is then
independent of whatever the calendar fetch would return, and the rest of
the pipeline reads no network, environment or shared mutable state. -/
theorem c5_amended_deterministic (text : String) (s : Date) (off : Int) (e : Date)
    (u1 u2 : List Ev) (h : detect_semester text = none) :
    extract_events text s off e u1 = extract_events text s off e u2 := by
  unfold extract_events
  rw [h]

/-- C5 (witness). A concrete semester-free document on which the amended
determinism theorem applies with two different oracles. -/
theorem c5_amended_witness :
    detect_semester "Quiz 1 Oct 1" = none ∧
    extract_events "Quiz 1 Oct 1" ⟨2024, 9, 2⟩ 0 ⟨2025, 8, 31⟩
        [(⟨2024, 1, 1⟩, "A")] =
      extract_events "Quiz 1 Oct 1" ⟨2024, 9, 2⟩ 0 ⟨2025, 8, 31⟩
        [(⟨2024, 2, 2⟩, "B")] :=
  ⟨by decide, c5_amended_deterministic _ _ _ _ _ _ (by decide)⟩

/-- C6. The title classifier is total (the embedding is a total function;
the source has no raising operation on this path) and never returns an
empty string; rules are tried in order with first match winning, and the
fallback strips leading bullets/dashes/whitespace, truncates a cleaned
line longer than 80 characters to 77 plus an ellipsis, and returns
`"Event"` for an empty cleaned line — witnessed by concrete evaluations at
the boundary (80 vs 81 characters). -/
theorem c6_classifier_nonempty :
    (∀ line : String, smart_title line ≠ "") ∧
    smart_title "" = "Event" ∧
    smart_title "• -  " = "Event" ∧
    smart_title (String.mk (List.replicate 81 'x')) =
      String.mk (List.replicate 77 'x') ++ "…" ∧
    smart_title (String.mk (List.replicate 80 'x')) =
      String.mk (List.replicate 80 'x') ∧
    smart_title "• - Lecture 1 notes" = "Lecture 1 notes" := by
  exact ⟨smart_title_ne_empty, by decide, by decide, by decide, by decide, by decide⟩

/-- C7. Rule precedence: whenever the term-test pattern `TT\d+` matches a
line, `smart_title` returns the term-test title (rule 1 is tried first),
never a more generic rule or the fallback; and the claim's scenario holds:
`"TT1 — Oct 15, 2024"` with reference start 2024-09-01 yields exactly one
event (2024-10-15, `"Term Test 1"`). -/
theorem c7_tt_precedence :
    (∀ (line : String) (ds : List Char),
      searchTT line.data = some ds → smart_title line = "Term Test " ++ String.mk ds) ∧
    extract_events "TT1 — Oct 15, 2024" ⟨2024, 9, 1⟩ 0 ⟨2025, 8, 31⟩ [] =
      [(⟨2024, 10, 15⟩, "Term Test 1")] := by
  constructor
  · intro line ds h
    unfold smart_title smartTitleCore
    rw [h]
  · decide

/-- C7 (witness). The precedence statement applied at the scenario line,
which also matches the `quiz`-free generic fallback shape. -/
theorem c7_tt_precedence_witness :
    searchTT ("TT1 — Oct 15, 2024").data = some ['1'] ∧
    smart_title "TT1 — Oct 15, 2024" = "Term Test " ++ String.mk ['1'] :=
  ⟨by decide, c7_tt_precedence.1 "TT1 — Oct 15, 2024" ['1'] (by decide)⟩

/-- C9. Malformed content degrades to fewer events, never an error: the
embedding is total (parse failures are `Option` failures that are
filtered out), an invalid day-of-month (`"Feb 31"`, `"Jan 0"`) or
unparseable numeric fragment produces no candidate while processing of the
line continues (`"Feb 31 and Oct 1, 2024"` still yields the valid date),
and an empty document yields the empty event sequence for every reference
input. -/
theorem c9_malformed_content_recovery :
    (∀ (s : Date) (off : Int) (e : Date) (u : List Ev),
      extract_events "" s off e u = []) ∧
    parse_dates "Feb 31" ⟨2024, 9, 1⟩ = [] ∧
    parse_dates "Feb 31 and Oct 1, 2024" ⟨2024, 9, 1⟩ = [⟨2024, 10, 1⟩] ∧
    extract_events "Feb 31\nJan 0 und 45/45/4545" ⟨2024, 9, 1⟩ 0 ⟨2025, 8, 31⟩ [] = [] := by
  exact ⟨fun s off e u => rfl, by decide, by decide, by decide⟩

/-! ### C10: declarative emission order -/

/-- Events one line emits, in emission order: all absolute-date events
(document match order), then all week-relative events (match order), each
with the contextually resolved title. -/
def lineEvents (start : Date) (offset : Int) (window buffer : List String)
    (line : String) : List Ev :=
  (parse_dates line start).map (fun d => (d, contextual_title window buffer line)) ++
  (weekFinditer line.data).map
    (fun n => (week_date start n offset, contextual_title window buffer line))

/-- The raw emission stream of the extraction loop: lines in document
order, each contributing `lineEvents` under its own sliding window and
forward buffer. -/
def emitSpec (start : Date) (offset : Int) : List String → List String → List Ev
  | _, [] => []
  | window, line :: rest =>
    lineEvents start offset window (rest.take 4) line ++
      emitSpec start offset (pushWindow window line) rest

/-- Keep the earliest occurrence of each (date, title) key, dropping keys
already in `seen`. -/
def dedupKeepFirst (seen : List Ev) : List Ev → List Ev
  | [] => []
  | k :: ks =>
    if k ∈ seen then dedupKeepFirst seen ks
    else k :: dedupKeepFirst (seen ++ [k]) ks

theorem foldl_pushEvt (l : List Ev) :
    ∀ evts seen, l.foldl pushEvt (evts, seen) =
      (evts ++ dedupKeepFirst seen l, seen ++ dedupKeepFirst seen l) := by
  induction l with
  | nil => intro evts seen; simp [dedupKeepFirst]
  | cons k ks ih =>
    intro evts seen
    by_cases hk : k ∈ seen
    · simp only [List.foldl_cons, pushEvt, hk, if_pos, dedupKeepFirst, if_true]
      exact ih evts seen
    · simp only [List.foldl_cons, pushEvt, hk, if_false, dedupKeepFirst, if_true]
      rw [ih (evts ++ [k]) (seen ++ [k])]
      simp

theorem dedupKeepFirst_append (a b : List Ev) :
    ∀ seen, dedupKeepFirst seen (a ++ b) =
      dedupKeepFirst seen a ++
        dedupKeepFirst (seen ++ dedupKeepFirst seen a) b := by
  induction a with
  | nil => intro seen; simp [dedupKeepFirst]
  | cons k ks ih =>
    intro seen
    by_cases hk : k ∈ seen
    · simp only [List.cons_append, dedupKeepFirst, hk, if_true]
      exact ih seen
    · simp only [List.cons_append, dedupKeepFirst, hk, if_false]
      rw [show ks.append b = ks ++ b from rfl, ih (seen ++ [k])]
      simp

theorem line_folds (start : Date) (offset : Int) (line : String)
    (buffer window : List String) (evts seen : List Ev) :
    ((weekFinditer line.data).foldl
      (fun acc n => pushEvt acc (week_date start n offset,
        contextual_title window buffer line))
      ((parse_dates line start).foldl
        (fun acc d => pushEvt acc (d, contextual_title window buffer line))
        (evts, seen))) =
    (evts ++ dedupKeepFirst seen (lineEvents start offset window buffer line),
     seen ++ dedupKeepFirst seen (lineEvents start offset window buffer line)) := by
  have h1 : (parse_dates line start).foldl
      (fun acc d => pushEvt acc (d, contextual_title window buffer line))
      (evts, seen) =
      ((parse_dates line start).map
        (fun d => (d, contextual_title window buffer line))).foldl pushEvt (evts, seen) := by
    rw [List.foldl_map]
  have h2 : ∀ st : List Ev × List Ev, (weekFinditer line.data).foldl
      (fun acc n => pushEvt acc (week_date start n offset,
        contextual_title window buffer line)) st =
      ((weekFinditer line.data).map
        (fun n => (week_date start n offset,
          contextual_title window buffer line))).foldl pushEvt st := by
    intro st; rw [List.foldl_map]
  rw [h1, h2, foldl_pushEvt, foldl_pushEvt, lineEvents, dedupKeepFirst_append]
  simp [List.append_assoc]

theorem extractLoop_eq (start : Date) (offset : Int) :
    ∀ (ls : List String) (evts seen : List Ev) (window : List String),
      extractLoop start offset ls evts seen window =
        evts ++ dedupKeepFirst seen (emitSpec start offset window ls) := by
  intro ls
  induction ls with
  | nil => intro evts seen window; simp [extractLoop, emitSpec, dedupKeepFirst]
  | cons line rest ih =>
    intro evts seen window
    rw [extractLoop, line_folds, ih, emitSpec, dedupKeepFirst_append]
    simp [List.append_assoc]

/-- C10. Within one invocation (no semester marker, so nothing is merged
ahead of extraction), the output equals the earliest-occurrence
deduplication of the declarative emission stream: lines in document
order, per line all absolute-date events before any week-relative events,
with a recurring (date, title) key keeping its earliest emission. This is
the emission order the sort tie-breaking paragraph of the spec refers
to. -/
theorem c10_emission_order (text : String) (s : Date) (off : Int) (e : Date)
    (u : List Ev) (h : detect_semester text = none) :
    extract_events text s off e u =
      dedupKeepFirst [] (emitSpec s off [] (iter_lines text)) := by
  unfold extract_events
  rw [h]
  simpa using extractLoop_eq s off (iter_lines text) [] [] []

/-- C10 (witness). The emission-order characterization applied to a
concrete three-line document mixing absolute and week-relative events. -/
theorem c10_emission_order_witness :
    detect_semester "Quiz 2 assigned\nWeek 3\nOct 7" = none ∧
    extract_events "Quiz 2 assigned\nWeek 3\nOct 7" ⟨2024, 9, 2⟩ 0 ⟨2025, 8, 31⟩ [] =
      dedupKeepFirst []
        (emitSpec ⟨2024, 9, 2⟩ 0 [] (iter_lines "Quiz 2 assigned\nWeek 3\nOct 7")) :=
  ⟨by decide,
   c10_emission_order "Quiz 2 assigned\nWeek 3\nOct 7" ⟨2024, 9, 2⟩ 0 ⟨2025, 8, 31⟩ []
     (by decide)⟩

/-! ### C8: idempotence of the text normalizer

The proof shows that the output of `month_brk_sub` contains no further
`MONTH_BRK` match (every replacement leaves `"Month. dd"`, whose
whitespace-free gap can never satisfy the `\s*\n\s*` part again), so a
second pass is the identity; the two character replacements are idempotent
maps whose targets the substitution never reintroduces. -/

theorem pySpace_code {c : Char} (h : pySpace c = true) :
    c.toNat = 32 ∨ c.toNat = 9 ∨ c.toNat = 10 ∨ c.toNat = 13 ∨ c.toNat = 11 ∨
    c.toNat = 12 ∨ c.toNat = 28 ∨ c.toNat = 29 ∨ c.toNat = 30 ∨ c.toNat = 133 ∨
    c.toNat = 160 ∨ (8192 ≤ c.toNat ∧ c.toNat ≤ 8202) ∨ c.toNat = 8232 ∨
    c.toNat = 8233 ∨ c.toNat = 5760 ∨ c.toNat = 8239 ∨ c.toNat = 8287 ∨
    c.toNat = 12288 := by
  have h' := of_decide_eq_true h
  rcases h' with h' | h' | h' | h' | h' | h' | h' | h' | h' | h' | h' | h' | h' | h' | h' | h' | h' | h' <;>
    first
    | (subst h'; decide)
    | omega

theorem digit_not_space {c : Char} (h : pyDigit c = true) : pySpace c = false := by
  cases hs : pySpace c
  · rfl
  · exfalso
    have h1 := pySpace_code hs
    have h2 : 48 ≤ c.toNat ∧ c.toNat ≤ 57 := of_decide_eq_true h
    omega

theorem letter_not_space {c : Char} (h : asciiLetter c = true) : pySpace c = false := by
  cases hs : pySpace c
  · rfl
  · exfalso
    have h1 := pySpace_code hs
    have h2 : (65 ≤ c.toNat ∧ c.toNat ≤ 90) ∨ (97 ≤ c.toNat ∧ c.toNat ≤ 122) :=
      of_decide_eq_true h
    omega

theorem digit_not_letter {c : Char} (h : pyDigit c = true) : asciiLetter c = false := by
  cases hs : asciiLetter c
  · rfl
  · exfalso
    have h1 : (65 ≤ c.toNat ∧ c.toNat ≤ 90) ∨ (97 ≤ c.toNat ∧ c.toNat ≤ 122) :=
      of_decide_eq_true hs
    have h2 : 48 ≤ c.toNat ∧ c.toNat ≤ 57 := of_decide_eq_true h
    omega

theorem ciEq_letter {p c : Char} (hp : asciiLetter p = true) (h : ciEq p c = true) :
    asciiLetter c = true := by
  have h' : lowN p.toNat = lowN c.toNat := of_decide_eq_true h
  have hp' : (65 ≤ p.toNat ∧ p.toNat ≤ 90) ∨ (97 ≤ p.toNat ∧ p.toNat ≤ 122) :=
    of_decide_eq_true hp
  apply decide_eq_true
  unfold lowN at h'
  split_ifs at h' <;> omega

theorem ciEq_letter_not {p c : Char} (hp : asciiLetter p = true)
    (hc : asciiLetter c = false) : ciEq p c = false := by
  cases h : ciEq p c
  · rfl
  · rw [ciEq_letter hp h] at hc
    exact absurd hc (by simp)

theorem stripCi_decomp :
    ∀ (p cs r : List Char), stripCi p cs = some r →
      ∃ t, cs = t ++ r ∧ t.length = p.length ∧
        List.Forall₂ (fun a b => ciEq a b = true) p t := by
  intro p
  induction p with
  | nil =>
    intro cs r h
    simp only [stripCi, Option.some.injEq] at h
    exact ⟨[], by simp [h], rfl, List.Forall₂.nil⟩
  | cons p ps ih =>
    intro cs r h
    cases cs with
    | nil => simp [stripCi] at h
    | cons c cs' =>
      simp only [stripCi] at h
      split_ifs at h with hc
      obtain ⟨t, h1, h2, h3⟩ := ih cs' r h
      exact ⟨c :: t, by simp [h1], by simp [h2], List.Forall₂.cons hc h3⟩

theorem stripCi_append_of_le :
    ∀ (p a u : List Char), p.length ≤ a.length →
      stripCi p (a ++ u) = (stripCi p a).map (· ++ u) := by
  intro p
  induction p with
  | nil => intro a u _; simp [stripCi]
  | cons p ps ih =>
    intro a u hl
    cases a with
    | nil => simp at hl
    | cons c a' =>
      simp only [List.cons_append, stripCi]
      split_ifs with hc
      · exact ih a' u (by simpa using hl)
      · rfl

theorem forall₂_ciEq_letters :
    ∀ {p t : List Char}, List.Forall₂ (fun a b => ciEq a b = true) p t →
      (∀ a ∈ p, asciiLetter a = true) → ∀ c ∈ t, asciiLetter c = true := by
  intro p t h
  induction h with
  | nil => intro _ c hc; simp at hc
  | cons hab _ ih =>
    intro hp c hc
    rcases List.mem_cons.mp hc with rfl | hc'
    · exact ciEq_letter (hp _ (List.mem_cons_self _ _)) hab
    · exact ih (fun a ha => hp a (List.mem_cons_of_mem _ ha)) c hc'

theorem takeWhile_append_all {p : Char → Bool} :
    ∀ (a b : List Char), (∀ c ∈ a, p c = true) →
      (a ++ b).takeWhile p = a ++ b.takeWhile p := by
  intro a
  induction a with
  | nil => intro b _; simp
  | cons c a' ih =>
    intro b h
    simp only [List.cons_append, List.takeWhile_cons,
      h c (List.mem_cons_self _ _), if_true]
    rw [ih b (fun x hx => h x (List.mem_cons_of_mem _ hx))]

theorem dropWhile_append_all {p : Char → Bool} :
    ∀ (a b : List Char), (∀ c ∈ a, p c = true) →
      (a ++ b).dropWhile p = b.dropWhile p := by
  intro a
  induction a with
  | nil => intro b _; simp
  | cons c a' ih =>
    intro b h
    simp only [List.cons_append, List.dropWhile_cons,
      h c (List.mem_cons_self _ _), if_true]
    exact ih b (fun x hx => h x (List.mem_cons_of_mem _ hx))

theorem takeWhile_cons_neg {p : Char → Bool} {c : Char} (b : List Char)
    (h : p c = false) : (c :: b).takeWhile p = [] := by
  simp [List.takeWhile_cons, h]

theorem dropWhile_cons_neg {p : Char → Bool} {c : Char} (b : List Char)
    (h : p c = false) : (c :: b).dropWhile p = c :: b := by
  simp [List.dropWhile_cons, h]

/-- When `takeWhile` stops strictly inside `l` (its `dropWhile` is
non-empty), appending more input changes nothing. -/
theorem takeWhile_confined {p : Char → Bool} :
    ∀ (l u : List Char), l.dropWhile p ≠ [] →
      (l ++ u).takeWhile p = l.takeWhile p ∧
      (l ++ u).dropWhile p = l.dropWhile p ++ u := by
  intro l
  induction l with
  | nil => intro u h; simp at h
  | cons c l' ih =>
    intro u h
    cases hc : p c with
    | false =>
      constructor
      · rw [List.cons_append, takeWhile_cons_neg _ hc, takeWhile_cons_neg _ hc]
      · rw [List.cons_append, dropWhile_cons_neg _ hc, dropWhile_cons_neg _ hc,
          List.cons_append]
    | true =>
      have h' : l'.dropWhile p ≠ [] := by
        simpa [List.dropWhile_cons, hc] using h
      obtain ⟨ht, hd⟩ := ih u h'
      constructor
      · simp only [List.cons_append, List.takeWhile_cons, hc, if_true, ht]
      · simpa [List.dropWhile_cons, hc] using hd

theorem last_concat_eq {l1 l2 : List Char} {e x : Char}
    (h : l1 ++ [e] = l2 ++ [x]) : e = x ∧ l1 = l2 := by
  have hr := congrArg List.reverse h
  simp only [List.reverse_append, List.reverse_cons, List.reverse_nil,
    List.nil_append, List.singleton_append] at hr
  injection hr with h1 h2
  exact ⟨h1, by simpa using congrArg List.reverse h2⟩

theorem suffix_append_split {s a b : List Char} (h : s <:+ (a ++ b)) :
    s <:+ b ∨ ∃ a', a' ≠ [] ∧ a' <:+ a ∧ s = a' ++ b := by
  obtain ⟨w, hw⟩ := h
  rcases List.append_eq_append_iff.mp hw with ⟨x, h1, h2⟩ | ⟨y, h1, h2⟩
  · rcases x with _ | ⟨c, x'⟩
    · left
      have hsb : s = b := by simpa using h2
      rw [hsb]
    · exact Or.inr ⟨c :: x', by simp, ⟨w, h1.symm⟩, h2⟩
  · exact Or.inl ⟨y, h2.symm⟩

theorem monthTable_letters :
    ∀ pn ∈ monthPfxTable, ∀ a ∈ pn.1.data, asciiLetter a = true := by decide

theorem monthTable_len : ∀ pn ∈ monthPfxTable, 3 ≤ pn.1.data.length := by decide

theorem monthTable_len_le : ∀ pn ∈ monthPfxTable, pn.1.data.length ≤ 4 := by decide

theorem monthTable_head_letter :
    ∀ pn ∈ monthPfxTable, pn.1.data.head?.map asciiLetter = some true := by decide

theorem drop_takeWhile_length (p : Char → Bool) :
    ∀ l : List Char, l.drop (l.takeWhile p).length = l.dropWhile p := by
  intro l
  induction l with
  | nil => rfl
  | cons c l ih =>
    by_cases hc : p c <;>
      simp [List.takeWhile_cons, List.dropWhile_cons, hc, ih]

theorem findSome?_congr {α β : Type} (l : List α) (f g : α → Option β)
    (h : ∀ a ∈ l, f a = g a) : l.findSome? f = l.findSome? g := by
  induction l with
  | nil => rfl
  | cons a l ih =>
    rw [List.findSome?_cons, List.findSome?_cons, h a (List.mem_cons_self _ _),
      ih fun x hx => h x (List.mem_cons_of_mem _ hx)]

theorem findSome?_option_map {α β γ : Type} (l : List α) (f : α → Option β)
    (g : β → γ) : l.findSome? (fun a => (f a).map g) = (l.findSome? f).map g := by
  induction l with
  | nil => rfl
  | cons a l ih =>
    rw [List.findSome?_cons, List.findSome?_cons]
    cases f a <;> simp [ih]

theorem matchMonthText_decomp {cs mtxt r : List Char}
    (h : matchMonthText cs = some (mtxt, r)) :
    cs = mtxt ++ r ∧ 3 ≤ mtxt.length ∧ (∀ c ∈ mtxt, asciiLetter c = true) := by
  obtain ⟨pn, hmem, hpn⟩ := List.exists_of_findSome?_eq_some h
  cases hs : stripCi pn.1.data cs with
  | none => rw [hs] at hpn; simp at hpn
  | some r0 =>
    rw [hs] at hpn
    simp only [Option.map_some', Option.some.injEq, Prod.mk.injEq] at hpn
    obtain ⟨hm, hr⟩ := hpn
    obtain ⟨t, hcs, htl, hf2⟩ := stripCi_decomp _ _ _ hs
    have htake : cs.take pn.1.data.length = t := by
      rw [hcs]; exact List.take_left' htl
    have hsplit : r0.takeWhile asciiLetter ++ r0.dropWhile asciiLetter = r0 :=
      List.takeWhile_append_dropWhile ..
    have hdrop : r0.drop (r0.takeWhile asciiLetter).length = r0.dropWhile asciiLetter :=
      drop_takeWhile_length asciiLetter r0
    rw [htake] at hm
    rw [hdrop] at hr
    refine ⟨?_, ?_, ?_⟩
    · rw [hcs, ← hm, ← hr]
      conv_lhs => rw [← hsplit]
      simp [List.append_assoc]
    · rw [← hm]
      have := monthTable_len pn hmem
      simp only [List.length_append]
      omega
    · intro c hc
      rw [← hm] at hc
      rcases List.mem_append.mp hc with hc' | hc'
      · rw [← htake] at hc'
        exact forall₂_ciEq_letters hf2 (monthTable_letters pn hmem) c
          (htake ▸ hc')
      · exact List.mem_takeWhile_imp hc'

theorem matchMonthText_head_not_letter {c : Char} (hc : asciiLetter c = false)
    (z : List Char) : matchMonthText (c :: z) = none := by
  rw [matchMonthText, List.findSome?_eq_none_iff]
  intro pn hmem
  have hh := monthTable_head_letter pn hmem
  cases hpd : pn.1.data with
  | nil => rw [hpd] at hh; simp at hh
  | cons p ps =>
    rw [hpd] at hh
    simp only [List.head?_cons, Option.map_some', Option.some.injEq] at hh
    simp [stripCi, ciEq_letter_not hh hc]

/-- Locality of `matchMonthText` behind a dot-terminated prefix: the letter
run can never cross the dot, so continuations beyond it are irrelevant. -/
theorem matchMonthText_dot_append {B : List Char} (u : List Char)
    (h4 : 4 ≤ (B ++ ['.']).length) :
    matchMonthText ((B ++ ['.']) ++ u) =
      (matchMonthText (B ++ ['.'])).map fun p => (p.1, p.2 ++ u) := by
  rw [matchMonthText, matchMonthText, ← findSome?_option_map]
  apply findSome?_congr
  intro pn hmem
  have hlen4 : pn.1.data.length ≤ 4 := monthTable_len_le pn hmem
  have hAlen : pn.1.data.length ≤ (B ++ ['.']).length := le_trans hlen4 h4
  · rw [stripCi_append_of_le _ _ _ hAlen]
    cases hs : stripCi pn.1.data (B ++ ['.']) with
    | none => simp
    | some rA =>
      simp only [Option.map_some']
      obtain ⟨t, hA, htl, hf2⟩ := stripCi_decomp _ _ _ hs
      have htlet : ∀ c ∈ t, asciiLetter c = true :=
        forall₂_ciEq_letters hf2 (monthTable_letters pn hmem)
      have hdotA : '.' ∈ rA := by
        rcases List.eq_nil_or_concat rA with rfl | ⟨rA', rl, hrA⟩
        · exfalso
          rw [List.append_nil] at hA
          have : asciiLetter '.' = true := htlet '.' (by rw [← hA]; simp)
          simp [asciiLetter] at this
        · rw [List.concat_eq_append] at hrA
          subst hrA
          rw [← List.append_assoc] at hA
          obtain ⟨heq, -⟩ := last_concat_eq hA.symm
          simp [heq]
      have hdw : rA.dropWhile asciiLetter ≠ [] := by
        intro hnil
        have := (List.dropWhile_eq_nil_iff.mp hnil) '.' hdotA
        simp [asciiLetter] at this
      obtain ⟨htw, hdr⟩ := takeWhile_confined rA u hdw
      have hsplit : rA.takeWhile asciiLetter ++ rA.dropWhile asciiLetter = rA :=
        List.takeWhile_append_dropWhile ..
      have hd1 : (rA ++ u).drop ((rA ++ u).takeWhile asciiLetter).length =
          rA.dropWhile asciiLetter ++ u := by
        rw [drop_takeWhile_length, hdr]
      have hd2 : rA.drop (rA.takeWhile asciiLetter).length = rA.dropWhile asciiLetter :=
        drop_takeWhile_length asciiLetter rA
      rw [List.take_append_of_le_length hAlen, hd1, hd2, htw]

theorem brkMatchAt_decomp {Y : List Char} {G1 G2 Rst : List Char}
    (h : brkMatchAt Y = some (G1, G2, Rst)) :
    ∃ MT0 WS,
      G1 = MT0 ++ ['.'] ∧ 3 ≤ MT0.length ∧ (∀ c ∈ MT0, asciiLetter c = true) ∧
      matchMonthText Y = some (MT0, '.' :: (WS ++ (G2 ++ Rst))) ∧
      Y = G1 ++ (WS ++ (G2 ++ Rst)) ∧
      (∀ c ∈ WS, pySpace c = true) ∧ '\n' ∈ WS ∧
      G2 ≠ [] ∧ (∀ c ∈ G2, pyDigit c = true) := by
  unfold brkMatchAt at h
  cases hm : matchMonthText Y with
  | none => rw [hm] at h; simp at h
  | some mt =>
    rw [hm] at h
    obtain ⟨mtxt, mr⟩ := mt
    simp only [Option.some_bind] at h
    cases hmr : mr with
    | nil => rw [hmr] at h; simp at h
    | cons c0 r2 =>
      rw [hmr] at h
      by_cases hc0 : c0 = '.'
      case neg =>
        exfalso
        cases hcc : c0 <;> simp_all [brkMatchAt]
      subst hc0
      simp only at h
      split_ifs at h with hnl hde
      simp only [Option.some.injEq, Prod.mk.injEq] at h
      have hG1 := h.1
      have hG2 := h.2.1
      have hRst := h.2.2
      clear h
      set ws := r2.takeWhile pySpace with hws
      set r3 := r2.drop ws.length with hr3
      set ds := r3.takeWhile pyDigit with hds
      obtain ⟨hY, hlen, hlet⟩ := matchMonthText_decomp hm
      have hdsne : ds ≠ [] := by
        intro hn
        rw [hn] at hde
        simp at hde
      have hr3drop : r3 = r2.dropWhile pySpace := by
        rw [hr3, hws, drop_takeWhile_length]
      have hr2split : ws ++ r3 = r2 := by
        rw [hr3drop, hws]
        exact List.takeWhile_append_dropWhile ..
      have hdssplit : ds ++ r3.dropWhile pyDigit = r3 := by
        rw [hds]
        exact List.takeWhile_append_dropWhile ..
      have hG2take : G2 = r3.take (min 2 ds.length) := by
        rw [← hG2]
        rcases le_or_lt ds.length 2 with hl | hl
        · rw [min_eq_right hl, List.take_all_of_le hl, ← hdssplit,
            List.take_left' rfl]
        · rw [min_eq_left (by omega : (2:Nat) ≤ ds.length), ← hdssplit,
            List.take_append_of_le_length (by omega)]
      have hG2Rst : G2 ++ Rst = r3 := by
        rw [hG2take, ← hRst]
        exact List.take_append_drop ..
      refine ⟨mtxt, ws, hG1.symm, hlen, hlet, ?_, ?_, ?_, hnl, ?_, ?_⟩
      · rw [hG2Rst, hr2split]
      · rw [← hG1, hY, hmr, hG2Rst, hr2split]
        simp
      · intro c hc; exact List.mem_takeWhile_imp (hws ▸ hc)
      · intro hn
        rw [← hG2] at hn
        have hlp := congrArg List.length hn
        simp only [List.length_take, List.length_nil] at hlp
        have hpos : 0 < ds.length := List.length_pos.mpr hdsne
        omega
      · intro c hc
        rw [← hG2] at hc
        exact List.mem_takeWhile_imp (hds ▸ List.mem_of_mem_take hc)

theorem append_cancel_left_chars {a b c : List Char} (h : a ++ b = a ++ c) : b = c :=
  List.append_cancel_left h

theorem matchMonthText_restrict {MT0 r2 tl : List Char}
    (h : matchMonthText ((MT0 ++ ['.']) ++ tl) = some (MT0, '.' :: r2))
    (h4 : 4 ≤ (MT0 ++ ['.']).length) :
    matchMonthText (MT0 ++ ['.']) = some (MT0, ['.']) := by
  rw [matchMonthText_dot_append tl h4] at h
  cases hq : matchMonthText (MT0 ++ ['.']) with
  | none => rw [hq] at h; simp at h
  | some q =>
    rw [hq] at h
    obtain ⟨q1, q2⟩ := q
    simp only [Option.map_some', Option.some.injEq, Prod.mk.injEq] at h
    obtain ⟨hq1, -⟩ := h
    obtain ⟨hA, -, -⟩ := matchMonthText_decomp hq
    subst hq1
    have : q2 = ['.'] := append_cancel_left_chars hA.symm
    rw [this]

theorem brkMatchAt_build {MT0 WS : List Char} {d : Char} (z : List Char)
    (hm : matchMonthText (MT0 ++ ['.']) = some (MT0, ['.']))
    (h4 : 4 ≤ (MT0 ++ ['.']).length)
    (hws : ∀ c ∈ WS, pySpace c = true) (hnl : '\n' ∈ WS)
    (hd : pyDigit d = true) :
    brkMatchAt ((MT0 ++ ['.']) ++ (WS ++ d :: z)) ≠ none := by
  unfold brkMatchAt
  rw [matchMonthText_dot_append _ h4, hm]
  simp only [Option.map_some', Option.some_bind, List.singleton_append,
    List.cons_append, List.nil_append]
  have htw : (WS ++ d :: z).takeWhile pySpace = WS := by
    rw [takeWhile_append_all WS _ hws, takeWhile_cons_neg _ (digit_not_space hd),
      List.append_nil]
  have hdr : (WS ++ d :: z).drop ((WS ++ d :: z).takeWhile pySpace).length = d :: z := by
    rw [htw]
    exact List.drop_left ..
  simp only [htw, hdr, hnl, if_true]
  have hne : ((d :: z).takeWhile pyDigit).isEmpty = false := by
    simp [List.takeWhile_cons, hd]
  simp [hne]

theorem brkMatchAt_head_not_letter {c : Char} (hc : asciiLetter c = false)
    (z : List Char) : brkMatchAt (c :: z) = none := by
  unfold brkMatchAt
  rw [matchMonthText_head_not_letter hc]
  rfl

/-- After a dot, a single space followed directly by a digit can never
satisfy `\s*\n\s*`: the whitespace run is exactly `[' ']` and contains no
newline. -/
theorem brkMatchAt_dot_space_digit {Y mtx g2 z : List Char}
    (hmm : matchMonthText Y = some (mtx, '.' :: (' ' :: (g2 ++ z))))
    (hg2 : g2 ≠ []) (hg2d : ∀ c ∈ g2, pyDigit c = true) :
    brkMatchAt Y = none := by
  unfold brkMatchAt
  rw [hmm]
  simp only [Option.some_bind]
  have hws : (' ' :: (g2 ++ z)).takeWhile pySpace = [' '] := by
    cases g2 with
    | nil => exact absurd rfl hg2
    | cons gh gt =>
      have hghd : pyDigit gh = true := hg2d gh (List.mem_cons_self _ _)
      simp [List.takeWhile_cons, digit_not_space hghd, show pySpace ' ' = true by decide]
  rw [hws]
  rw [if_neg (by decide)]

/-- No `MONTH_BRK` match can start inside a replacement
`mt ++ "." ++ " " ++ g2`, whatever follows it. -/
theorem noMatch_in_repl {mt g2 : List Char}
    (hmtl : ∀ c ∈ mt, asciiLetter c = true)
    (hg2 : g2 ≠ []) (hg2d : ∀ c ∈ g2, pyDigit c = true) :
    ∀ s z, s ≠ [] → s <:+ (mt ++ '.' :: ' ' :: g2) →
      brkMatchAt (s ++ z) = none := by
  intro s z hne hsuf
  rcases suffix_append_split hsuf with hsB | ⟨a', ha'ne, ha'suf, rfl⟩
  · rcases List.suffix_cons_iff.mp hsB with rfl | hsB2
    · exact brkMatchAt_head_not_letter (by decide) _
    · rcases List.suffix_cons_iff.mp hsB2 with rfl | hsB3
      · exact brkMatchAt_head_not_letter (by decide) _
      · cases s with
        | nil => exact absurd rfl hne
        | cons c s' =>
          have hcmem : c ∈ g2 := hsB3.subset (List.mem_cons_self _ _)
          exact brkMatchAt_head_not_letter
            (digit_not_letter (hg2d c hcmem)) _
  · have ha'let : ∀ c ∈ a', asciiLetter c = true :=
      fun c hc => hmtl c (ha'suf.subset hc)
    rw [List.append_assoc]
    cases hm : matchMonthText (a' ++ ('.' :: ' ' :: g2 ++ z)) with
    | none => unfold brkMatchAt; rw [hm]; rfl
    | some p =>
      obtain ⟨mtx, r⟩ := p
      obtain ⟨heq, -, hmtxlet⟩ := matchMonthText_decomp hm
      rcases List.append_eq_append_iff.mp heq.symm with ⟨a2, ha2, hr⟩ | ⟨c2, hc2, hr⟩
      · cases a2 with
        | nil =>
          rw [List.append_nil] at ha2
          subst ha2
          rw [List.cons_append] at hr
          subst hr
          exact @brkMatchAt_dot_space_digit _ _ g2 z hm hg2 hg2d
        | cons h2 t2 =>
          have hh2 : asciiLetter h2 = true := by
            apply ha'let
            rw [ha2]
            simp
          unfold brkMatchAt
          rw [hm]
          simp only [Option.some_bind]
          rw [hr]
          have hh2ne : h2 ≠ '.' := by
            intro hcon
            rw [hcon] at hh2
            simp [asciiLetter] at hh2
          simp only [List.cons_append]
          split
          · rename_i r2 heq2
            exact absurd (List.cons.injEq .. ▸ heq2).1 hh2ne
          · rfl
      · cases c2 with
        | nil =>
          rw [List.append_nil] at hc2
          subst hc2
          simp only [List.nil_append] at hr
          subst hr
          exact @brkMatchAt_dot_space_digit _ _ g2 z hm hg2 hg2d
        | cons hc2h hc2t =>
          exfalso
          have hdotmem : '.' ∈ mtx := by
            rw [hc2]
            have : hc2h = '.' := by
              have := hr
              rw [List.cons_append] at this
              exact ((List.cons.injEq ..).mp this).1.symm
            rw [this]
            simp
          have := hmtxlet '.' hdotmem
          simp [asciiLetter] at this

theorem mem_last_of_concat_eq {X l2 a2 : List Char} {e : Char}
    (h : X ++ [e] = l2 ++ a2) (hne : a2 ≠ []) : e ∈ a2 := by
  rcases List.eq_nil_or_concat a2 with rfl | ⟨a2', x, ha2⟩
  · exact absurd rfl hne
  · rw [List.concat_eq_append] at ha2
    subst ha2
    rw [← List.append_assoc] at h
    obtain ⟨hex, -⟩ := last_concat_eq h
    rw [hex]
    simp

/-- A whitespace run containing a newline can never equal the single space
a replacement leaves before its digits. -/
theorem ws_single_space_contra {WS G2 Rst g2 R : List Char}
    (hWSsp : ∀ c ∈ WS, pySpace c = true) (hWSnl : '\n' ∈ WS)
    (hg2ne : g2 ≠ []) (hg2d : ∀ c ∈ g2, pyDigit c = true)
    (heq : WS ++ (G2 ++ Rst) = ' ' :: (g2 ++ R)) : False := by
  cases WS with
  | nil => simp at hWSnl
  | cons w ws' =>
    rw [List.cons_append] at heq
    injection heq with hw heq2
    cases ws' with
    | nil =>
      subst hw
      rcases List.mem_cons.mp hWSnl with h1 | h1
      · exact absurd h1 (by decide)
      · simp at h1
    | cons w2 ws'' =>
      cases g2 with
      | nil => exact absurd rfl hg2ne
      | cons gh gt =>
        rw [List.cons_append, List.cons_append] at heq2
        injection heq2 with hw2 htail
        have hsp : pySpace w2 = true := hWSsp w2 (by simp)
        have hdg : pyDigit gh = true := hg2d gh (by simp)
        rw [hw2] at hsp
        rw [digit_not_space hdg] at hsp
        exact absurd hsp (by simp)

/-- Structure of one pass of the substitution: either the text is returned
unchanged, or it decomposes at the first match into an unchanged prefix,
the matched month text and dot, the matched whitespace (containing a
newline), the matched digits, and a rest — with the output carrying a
single space where the whitespace run was. -/
theorem brkSub_structure (fuel : Nat) :
    ∀ xs : List Char,
      brkSubAux fuel xs = xs ∨
      ∃ pre mt ws g2 R rest,
        xs = ((pre ++ mt) ++ ['.']) ++ (ws ++ (g2 ++ rest)) ∧
        brkSubAux fuel xs = ((pre ++ mt) ++ ['.']) ++ (' ' :: (g2 ++ R)) ∧
        (∀ c ∈ mt, asciiLetter c = true) ∧
        (∀ c ∈ ws, pySpace c = true) ∧ '\n' ∈ ws ∧
        g2 ≠ [] ∧ (∀ c ∈ g2, pyDigit c = true) := by
  induction fuel with
  | zero => intro xs; left; rfl
  | succ fuel ih =>
    intro xs
    cases xs with
    | nil => left; rfl
    | cons c cs =>
      cases hm : brkMatchAt (c :: cs) with
      | none =>
        rcases ih cs with heq | ⟨pre, mt, ws, g2, R, rest, h1, h2, h3, h4, h5, h6, h7⟩
        · left
          simp only [brkSubAux, hm, heq]
        · right
          refine ⟨c :: pre, mt, ws, g2, R, rest, ?_, ?_, h3, h4, h5, h6, h7⟩
          · rw [show ((((c :: pre) ++ mt) ++ ['.']) ++ (ws ++ (g2 ++ rest))) =
              c :: (((pre ++ mt) ++ ['.']) ++ (ws ++ (g2 ++ rest))) by simp]
            rw [← h1]
          · simp only [brkSubAux, hm]
            rw [h2]
            simp
      | some v =>
        obtain ⟨g1, g2, rest⟩ := v
        obtain ⟨MT0, WS, hG1, hlen, hlet, hmm, hdec, hws, hnl, hg2ne, hg2d⟩ :=
          brkMatchAt_decomp hm
        right
        refine ⟨[], MT0, WS, g2, brkSubAux fuel rest, rest, ?_, ?_,
          hlet, hws, hnl, hg2ne, hg2d⟩
        · rw [hdec, hG1]
          simp [List.append_assoc]
        · simp only [brkSubAux, hm]
          rw [hG1]
          simp [List.append_assoc]

/-- Key preservation step: if no match starts at the head of `c :: xs`,
then no match starts at the head after the tail has been rewritten by one
substitution pass. A head match on the rewritten tail would have to place
its mandatory newline either inside the unchanged common prefix (then the
same match already existed, contradiction) or at the single space a
replacement produced (which is followed directly by a digit). -/
theorem brkMatchAt_none_preserved {c : Char} {xs : List Char} (fuel : Nat)
    (h : brkMatchAt (c :: xs) = none) :
    brkMatchAt (c :: brkSubAux fuel xs) = none := by
  rcases brkSub_structure fuel xs with heq |
    ⟨pre, mt, ws, g2, R, rest, hxs, hgo, hmtl, hwssp, hwsnl, hg2ne, hg2d⟩
  · rw [heq]; exact h
  cases hsome : brkMatchAt (c :: brkSubAux fuel xs) with
  | none => rfl
  | some v =>
    exfalso
    obtain ⟨G1, G2, Rst⟩ := v
    obtain ⟨MT0, WS, hG1, hMTlen, hMTlet, hmmY, hYdec, hWSsp, hWSnl, hG2ne, hG2d⟩ :=
      brkMatchAt_decomp hsome
    have hY2 : c :: brkSubAux fuel xs =
        (((c :: pre) ++ mt) ++ ['.']) ++ (' ' :: (g2 ++ R)) := by
      rw [hgo]; simp
    have hkey : G1 ++ (WS ++ (G2 ++ Rst)) =
        (((c :: pre) ++ mt) ++ ['.']) ++ (' ' :: (g2 ++ R)) :=
      hYdec.symm.trans hY2
    have hmm' : matchMonthText (MT0 ++ ['.']) = some (MT0, ['.']) := by
      apply @matchMonthText_restrict MT0 (WS ++ (G2 ++ Rst)) (WS ++ (G2 ++ Rst))
      · rw [← hG1, ← hYdec]
        exact hmmY
      · simp only [List.length_append, List.length_cons, List.length_nil]
        omega
    have h4 : 4 ≤ (MT0 ++ ['.']).length := by
      simp only [List.length_append, List.length_cons, List.length_nil]
      omega
    have hcxs0 : c :: xs = ((((c :: pre) ++ mt) ++ ['.'])) ++ (ws ++ (g2 ++ rest)) := by
      rw [hxs]; simp
    rcases List.append_eq_append_iff.mp hkey with ⟨a2, ha2, hb2⟩ | ⟨c2, hc2, hd2⟩
    · cases a2 with
      | nil =>
        rw [List.append_nil] at ha2
        exact ws_single_space_contra hWSsp hWSnl hg2ne hg2d (by simpa using hb2)
      | cons a2h a2t =>
        have hdot_a2 : '.' ∈ a2h :: a2t := mem_last_of_concat_eq ha2 (by simp)
        have hdot_nWS : '.' ∉ WS := by
          intro hin
          have := hWSsp '.' hin
          exact absurd this (by decide)
        rcases List.append_eq_append_iff.mp hb2 with ⟨w2, hw2, hgw⟩ | ⟨v2, hv2, hgv⟩
        · cases w2 with
          | nil =>
            rw [List.append_nil] at hw2
            exact hdot_nWS (hw2 ▸ hdot_a2)
          | cons w2h w2t =>
            rcases List.append_eq_append_iff.mp hgw with ⟨u, hu, hru⟩ | ⟨v, hvv, hvr⟩
            · -- the whole match sits inside the unchanged prefix: rebuild it
              -- on the original text, contradicting `h`
              cases hG2c : G2 with
              | nil => exact hG2ne hG2c
              | cons Gh Gt =>
                have hX1dot : (((c :: pre) ++ mt) ++ ['.']) =
                    G1 ++ (WS ++ (G2 ++ u)) := by
                  rw [ha2, hw2, hu]
                have hGhd : pyDigit Gh = true := hG2d Gh (by rw [hG2c]; simp)
                have hcxs : c :: xs = (MT0 ++ ['.']) ++
                    (WS ++ Gh :: (Gt ++ (u ++ (ws ++ (g2 ++ rest))))) := by
                  rw [hcxs0, hX1dot, hG1, hG2c]
                  simp
                rw [hcxs] at h
                exact brkMatchAt_build _ hmm' h4 hWSsp hWSnl hGhd h
            · cases v with
              | nil =>
                rw [List.append_nil] at hvv
                have hdot_w2 : '.' ∈ G2 := by
                  rw [hvv]
                  rcases List.mem_append.mp (hw2 ▸ hdot_a2) with hin | hin
                  · exact absurd hin hdot_nWS
                  · exact hin
                have := hG2d '.' hdot_w2
                exact absurd this (by decide)
              | cons vh vt =>
                have hvh : vh = ' ' := by
                  rw [List.cons_append] at hvr
                  exact (((List.cons.injEq ..).mp hvr).1).symm
                have hvhG2 : vh ∈ G2 := by
                  rw [hvv, hvh]
                  simp
                have := hG2d vh hvhG2
                rw [hvh] at this
                exact absurd this (by decide)
        · have hdot_WS : '.' ∈ WS := by
            rw [hv2]
            exact List.mem_append.mpr (Or.inl hdot_a2)
          exact hdot_nWS hdot_WS
    · cases c2 with
      | nil =>
        rw [List.append_nil] at hc2
        rw [List.nil_append] at hd2
        exact ws_single_space_contra hWSsp hWSnl hg2ne hg2d hd2.symm
      | cons ch ct =>
        have hch : ch = ' ' := by
          rw [List.cons_append] at hd2
          exact (((List.cons.injEq ..).mp hd2).1).symm
        have hchG1 : ch ∈ G1 := by
          rw [hc2]
          simp
        rw [hG1] at hchG1
        rcases List.mem_append.mp hchG1 with hin | hin
        · have := hMTlet ch hin
          rw [hch] at this
          exact absurd this (by decide)
        · rw [hch] at hin
          simp at hin

theorem brkMatchAt_nil : brkMatchAt [] = none := by decide

/-- After one full substitution pass (fuel covering the input), no match
begins anywhere in the output. -/
theorem brkSub_noM :
    ∀ fuel, ∀ xs : List Char, xs.length ≤ fuel →
      ∀ s, s <:+ brkSubAux fuel xs → brkMatchAt s = none := by
  intro fuel
  induction fuel with
  | zero =>
    intro xs hlen s hs
    have hx : xs = [] := List.length_eq_zero.mp (Nat.le_zero.mp hlen)
    subst hx
    have h0 : brkSubAux 0 [] = ([] : List Char) := rfl
    rw [h0] at hs
    have hsnil : s = [] := List.suffix_nil.mp hs
    subst hsnil
    exact brkMatchAt_nil
  | succ fuel ih =>
    intro xs hlen s hs
    cases xs with
    | nil =>
      have h0 : brkSubAux (fuel + 1) [] = ([] : List Char) := rfl
      rw [h0] at hs
      have hsnil : s = [] := List.suffix_nil.mp hs
      subst hsnil
      exact brkMatchAt_nil
    | cons c cs =>
      have hcs : cs.length ≤ fuel := by
        simp only [List.length_cons] at hlen
        omega
      cases hm : brkMatchAt (c :: cs) with
      | none =>
        have hout : brkSubAux (fuel + 1) (c :: cs) = c :: brkSubAux fuel cs := by
          simp only [brkSubAux, hm]
        rw [hout] at hs
        rcases List.suffix_cons_iff.mp hs with rfl | hs2
        · exact brkMatchAt_none_preserved fuel hm
        · exact ih cs hcs s hs2
      | some v =>
        obtain ⟨g1, g2, rest⟩ := v
        have hout : brkSubAux (fuel + 1) (c :: cs) =
            g1 ++ ' ' :: (g2 ++ brkSubAux fuel rest) := by
          simp only [brkSubAux, hm]
        obtain ⟨MT0, WS, hG1, hMTlen, hMTlet, hmmY, hYdec, hWSsp, hWSnl, hG2ne, hG2d⟩ :=
          brkMatchAt_decomp hm
        have hrl : rest.length ≤ fuel := by
          have hlq := congrArg List.length hYdec
          have hg1len : 1 ≤ g1.length := by
            rw [hG1]; simp
          simp only [List.length_cons, List.length_append] at hlq
          omega
        rw [hout] at hs
        have hs' : s <:+ (g1 ++ ' ' :: g2) ++ brkSubAux fuel rest := by
          simpa [List.append_assoc] using hs
        rcases suffix_append_split hs' with hsT | ⟨a', ha'ne, ha'suf, rfl⟩
        · exact ih rest hrl s hsT
        · have hrepl : g1 ++ ' ' :: g2 = MT0 ++ '.' :: ' ' :: g2 := by
            rw [hG1]; simp
          rw [hrepl] at ha'suf
          exact noMatch_in_repl hMTlet hG2ne hG2d a' (brkSubAux fuel rest) ha'ne ha'suf

/-- A string in which no match begins anywhere is a fixed point of the
substitution pass, for every fuel. -/
theorem noM_fix (fuel : Nat) :
    ∀ cs : List Char, (∀ s, s <:+ cs → brkMatchAt s = none) →
      brkSubAux fuel cs = cs := by
  induction fuel with
  | zero => intro cs _; rfl
  | succ fuel ih =>
    intro cs hno
    cases cs with
    | nil => rfl
    | cons c cs' =>
      have hm : brkMatchAt (c :: cs') = none := hno _ (List.suffix_refl _)
      have hout : brkSubAux (fuel + 1) (c :: cs') = c :: brkSubAux fuel cs' := by
        simp only [brkSubAux, hm]
      rw [hout, ih cs' fun s hs => hno s (hs.trans (List.suffix_cons c cs'))]

theorem month_brk_sub_idem (cs : List Char) :
    month_brk_sub (month_brk_sub cs) = month_brk_sub cs :=
  noM_fix _ _ (brkSub_noM cs.length cs le_rfl)

/-- The substitution pass only ever inserts the plain space character;
every output character is an input character or a space. -/
theorem brkSub_chars :
    ∀ fuel, ∀ xs : List Char, ∀ c, c ∈ brkSubAux fuel xs → c ∈ xs ∨ c = ' ' := by
  intro fuel
  induction fuel with
  | zero => intro xs c hc; exact Or.inl hc
  | succ fuel ih =>
    intro xs c hc
    cases xs with
    | nil =>
      have h0 : brkSubAux (fuel + 1) [] = ([] : List Char) := rfl
      rw [h0] at hc
      exact absurd hc (List.not_mem_nil c)
    | cons c0 cs0 =>
      cases hm : brkMatchAt (c0 :: cs0) with
      | none =>
        have hout : brkSubAux (fuel + 1) (c0 :: cs0) = c0 :: brkSubAux fuel cs0 := by
          simp only [brkSubAux, hm]
        rw [hout] at hc
        rcases List.mem_cons.mp hc with rfl | hc2
        · exact Or.inl (List.mem_cons_self _ _)
        · rcases ih cs0 c hc2 with hin | hsp
          · exact Or.inl (List.mem_cons_of_mem _ hin)
          · exact Or.inr hsp
      | some v =>
        obtain ⟨g1, g2, rest⟩ := v
        have hout : brkSubAux (fuel + 1) (c0 :: cs0) =
            g1 ++ ' ' :: (g2 ++ brkSubAux fuel rest) := by
          simp only [brkSubAux, hm]
        obtain ⟨MT0, WS, hG1, hMTlen, hMTlet, hmmY, hYdec, hWSsp, hWSnl, hG2ne, hG2d⟩ :=
          brkMatchAt_decomp hm
        rw [hout] at hc
        rcases List.mem_append.mp hc with h1 | h2
        · refine Or.inl ?_
          rw [hYdec]
          exact List.mem_append.mpr (Or.inl h1)
        · rcases List.mem_cons.mp h2 with rfl | h3
          · exact Or.inr rfl
          · rcases List.mem_append.mp h3 with h4 | h5
            · refine Or.inl ?_
              rw [hYdec]
              exact List.mem_append.mpr (Or.inr (List.mem_append.mpr
                (Or.inr (List.mem_append.mpr (Or.inl h4)))))
            · rcases ih rest c h5 with h6 | h7
              · refine Or.inl ?_
                rw [hYdec]
                exact List.mem_append.mpr (Or.inr (List.mem_append.mpr
                  (Or.inr (List.mem_append.mpr (Or.inr h6)))))
              · exact Or.inr h7

theorem map_replace_id (x y : Char) :
    ∀ L : List Char, x ∉ L → (L.map fun c => if c = x then y else c) = L := by
  intro L
  induction L with
  | nil => intro _; rfl
  | cons a t ih =>
    intro h
    have ha : ¬ a = x := fun hA => h (by rw [← hA]; exact List.mem_cons_self a t)
    simp only [List.map_cons, if_neg ha]
    rw [ih fun ht => h (List.mem_cons_of_mem a ht)]

theorem nbsp_not_mem_map1 (X : List Char) :
    '\xa0' ∉ X.map fun c => if c = '\xa0' then ' ' else c := by
  intro h
  obtain ⟨a, _, ha⟩ := List.mem_map.mp h
  by_cases hx : a = '\xa0'
  · rw [if_pos hx] at ha
    exact absurd ha (by decide)
  · rw [if_neg hx] at ha
    exact hx ha

theorem nbsp_not_mem_map2 {X : List Char} (hX : '\xa0' ∉ X) :
    '\xa0' ∉ X.map fun c => if c = '–' then '-' else c := by
  intro h
  obtain ⟨a, haX, ha⟩ := List.mem_map.mp h
  by_cases hx : a = '–'
  · rw [if_pos hx] at ha
    exact absurd ha (by decide)
  · rw [if_neg hx] at ha
    exact hX (ha ▸ haX)

theorem endash_not_mem_map (X : List Char) :
    '–' ∉ X.map fun c => if c = '–' then '-' else c := by
  intro h
  obtain ⟨a, _, ha⟩ := List.mem_map.mp h
  by_cases hx : a = '–'
  · rw [if_pos hx] at ha
    exact absurd ha (by decide)
  · rw [if_neg hx] at ha
    exact hx ha

theorem nbsp_not_mem_sub {X : List Char} (hX : '\xa0' ∉ X) :
    '\xa0' ∉ month_brk_sub X := by
  intro h
  rcases brkSub_chars X.length X _ h with h1 | h2
  · exact hX h1
  · exact absurd h2 (by decide)

theorem endash_not_mem_sub {X : List Char} (hX : '–' ∉ X) :
    '–' ∉ month_brk_sub X := by
  intro h
  rcases brkSub_chars X.length X _ h with h1 | h2
  · exact hX h1
  · exact absurd h2 (by decide)

/-- C8: the text normalizer at line 273 (non-breaking spaces to spaces,
en-dashes to hyphens, month/day line-break repair via MONTH_BRK.sub) is
idempotent: applying it to its own output yields that output unchanged.
The output contains no non-breaking space and no en-dash, so the two
character replacements are the identity on it, and the substitution
pass leaves a match-free string untouched. -/
theorem c8_normalizer_idempotent (text : String) :
    cleanedText (cleanedText text) = cleanedText text := by
  have hL : (cleanedText text).data =
      month_brk_sub ((text.data.map fun c => if c = '\xa0' then ' ' else c).map
        fun c => if c = '–' then '-' else c) := rfl
  have hno1 : '\xa0' ∉ (cleanedText text).data := by
    rw [hL]
    exact nbsp_not_mem_sub (nbsp_not_mem_map2 (nbsp_not_mem_map1 _))
  have hno2 : '–' ∉ (cleanedText text).data := by
    rw [hL]
    exact endash_not_mem_sub (endash_not_mem_map _)
  show String.mk (month_brk_sub
      (((cleanedText text).data.map fun c => if c = '\xa0' then ' ' else c).map
        fun c => if c = '–' then '-' else c)) = cleanedText text
  rw [map_replace_id _ _ _ hno1, map_replace_id _ _ _ hno2, hL, month_brk_sub_idem]
  rfl

end StudentCalendar
